import Mathlib

/-!
Verification of the json-mcp ingestion-and-projection pipeline.

The definitions below are shallow embeddings of the TypeScript source:
  - `extractWithShape`, `calculateValueSize`, `addSizeBreakdowns` from the
    server entry point (src/unnamed/part_004, second document, v1.0.1);
  - `LocalFileStrategy` from src/unnamed/part_003 (the revision carrying the
    50 MB cap);
  - `HttpJsonStrategy` from src/src/strategies/HttpJsonStrategy.ts;
  - `JsonIngestionContext` from src/src/context/JsonIngestionContext.ts.

JavaScript runtime values reachable in this program are parsed JSON data
plus `undefined`, so the value model is a JSON variant with an extra
`undefined` constructor.  A JS number is modelled by its canonical decimal
string (the string that both `toString()` and `JSON.stringify` emit for
it).  Property access `data[key]` is modelled on own properties of parsed
JSON data; access on `null`/`undefined` throws, which the embedding
represents as `Except.error`.  I/O (the file system, `fetch`, `JSON.parse`
success) enters as explicit function parameters.
-/

namespace JsonMcp

/-- JavaScript values occurring in the pipeline: parsed JSON values plus
the distinguished `undefined`. -/
inductive JsValue where
  | null
  | undefined
  | bool (b : Bool)
  | num (repr : String)
  | str (s : String)
  | arr (elems : List JsValue)
  | obj (fields : List (String × JsValue))
deriving Repr

mutual

/-- Structural equality test for `JsValue` (the nested positions rule out
the automatic `DecidableEq` handler, so the instance is built by hand). -/
def beqJs : JsValue → JsValue → Bool
  | .null, .null => true
  | .undefined, .undefined => true
  | .bool a, .bool b => a == b
  | .num a, .num b => a == b
  | .str a, .str b => a == b
  | .arr a, .arr b => beqJsList a b
  | .obj a, .obj b => beqJsFields a b
  | _, _ => false

def beqJsList : List JsValue → List JsValue → Bool
  | [], [] => true
  | x :: xs, y :: ys => beqJs x y && beqJsList xs ys
  | _, _ => false

def beqJsFields : List (String × JsValue) → List (String × JsValue) → Bool
  | [], [] => true
  | (k₁, v₁) :: xs, (k₂, v₂) :: ys => k₁ == k₂ && beqJs v₁ v₂ && beqJsFields xs ys
  | _, _ => false

end

mutual

theorem beqJs_iff_eq : ∀ a b : JsValue, beqJs a b = true ↔ a = b
  | .null, .null => by simp [beqJs]
  | .undefined, .undefined => by simp [beqJs]
  | .bool _, .bool _ => by simp [beqJs]
  | .num _, .num _ => by simp [beqJs]
  | .str _, .str _ => by simp [beqJs]
  | .arr x, .arr y => by simp [beqJs, beqJsList_iff_eq x y]
  | .obj x, .obj y => by simp [beqJs, beqJsFields_iff_eq x y]
  | .null, .undefined | .null, .bool _ | .null, .num _ | .null, .str _ | .null, .arr _
  | .null, .obj _
  | .undefined, .null | .undefined, .bool _ | .undefined, .num _ | .undefined, .str _ | .undefined, .arr _
  | .undefined, .obj _
  | .bool _, .null | .bool _, .undefined | .bool _, .num _ | .bool _, .str _ | .bool _, .arr _
  | .bool _, .obj _
  | .num _, .null | .num _, .undefined | .num _, .bool _ | .num _, .str _ | .num _, .arr _
  | .num _, .obj _
  | .str _, .null | .str _, .undefined | .str _, .bool _ | .str _, .num _ | .str _, .arr _
  | .str _, .obj _
  | .arr _, .null | .arr _, .undefined | .arr _, .bool _ | .arr _, .num _ | .arr _, .str _
  | .arr _, .obj _
  | .obj _, .null | .obj _, .undefined | .obj _, .bool _ | .obj _, .num _ | .obj _, .str _
  | .obj _, .arr _ => by simp [beqJs]

theorem beqJsList_iff_eq : ∀ xs ys : List JsValue, beqJsList xs ys = true ↔ xs = ys
  | [], [] => by simp [beqJsList]
  | x :: xs, y :: ys => by simp [beqJsList, beqJs_iff_eq x y, beqJsList_iff_eq xs ys]
  | [], _ :: _ => by simp [beqJsList]
  | _ :: _, [] => by simp [beqJsList]

theorem beqJsFields_iff_eq : ∀ xs ys : List (String × JsValue), beqJsFields xs ys = true ↔ xs = ys
  | [], [] => by simp [beqJsFields]
  | (k₁, v₁) :: xs, (k₂, v₂) :: ys => by
    simp [beqJsFields, beqJs_iff_eq v₁ v₂, beqJsFields_iff_eq xs ys, and_assoc]
  | [], _ :: _ => by simp [beqJsFields]
  | _ :: _, [] => by simp [beqJsFields]

end

instance : DecidableEq JsValue := fun a b =>
  decidable_of_iff (beqJs a b = true) (beqJs_iff_eq a b)

/-- UTF-8 byte length of a string: what `new TextEncoder().encode(s).length`
returns in JS. -/
def utf8Len (s : String) : Nat :=
  (s.data.map Char.utf8Size).sum

theorem utf8Len_append (a b : String) : utf8Len (a ++ b) = utf8Len a + utf8Len b := by
  simp [utf8Len, String.data_append]

/-- One lowercase hex digit, as `JSON.stringify` uses in `\uXXXX` escapes. -/
def hexDigit (n : Nat) : String :=
  String.singleton (if n < 10 then Char.ofNat (48 + n) else Char.ofNat (87 + n))

/-- The escape `JSON.stringify` applies to one character inside a quoted
string: `"` and `\` get a backslash, the five short escapes are used for
their control characters, the remaining control characters become
`\u00XX`, and everything else is copied verbatim. -/
def escapeChar (c : Char) : String :=
  if c = '"' then "\\\""
  else if c = '\\' then "\\\\"
  else if c = '\x08' then "\\b"
  else if c = '\x0c' then "\\f"
  else if c = '\n' then "\\n"
  else if c = '\r' then "\\r"
  else if c = '\t' then "\\t"
  else if c.toNat < 32 then "\\u00" ++ hexDigit (c.toNat / 16) ++ hexDigit (c.toNat % 16)
  else String.singleton c

/-- Concatenation of a list of strings. -/
def strConcat (l : List String) : String :=
  l.foldr (fun a b => a ++ b) ""

/-- `JSON.stringify` applied to a string: quotes around the escaped body. -/
def jsonQuote (s : String) : String :=
  "\"" ++ strConcat (s.data.map escapeChar) ++ "\""

/-- A character that `JSON.stringify` copies into a quoted string unchanged. -/
def plainChar (c : Char) : Bool :=
  !(c = '"') && !(c = '\\') && decide (32 ≤ c.toNat)

theorem utf8Len_singleton (c : Char) : utf8Len (String.singleton c) = c.utf8Size := by
  simp [utf8Len, String.singleton]

theorem utf8Len_strConcat (l : List String) : utf8Len (strConcat l) = (l.map utf8Len).sum := by
  induction l with
  | nil => rfl
  | cons x xs ih => simp [strConcat, utf8Len_append] at ih ⊢; omega

theorem escapeChar_plain {c : Char} (h : plainChar c = true) :
    escapeChar c = String.singleton c := by
  have h1 : ¬ c = '"' := by intro hc; subst hc; simp [plainChar] at h
  have h2 : ¬ c = '\\' := by intro hc; subst hc; simp [plainChar] at h
  have h3 : 32 ≤ c.toNat := by
    simp only [plainChar, Bool.and_eq_true, decide_eq_true_eq] at h
    exact h.2
  unfold escapeChar
  rw [if_neg h1, if_neg h2,
    if_neg (fun hc => absurd h3 (by subst hc; decide)),
    if_neg (fun hc => absurd h3 (by subst hc; decide)),
    if_neg (fun hc => absurd h3 (by subst hc; decide)),
    if_neg (fun hc => absurd h3 (by subst hc; decide)),
    if_neg (fun hc => absurd h3 (by subst hc; decide)),
    if_neg (by omega)]

/-- The object entries that survive serialization: `JSON.stringify` drops
properties whose value is `undefined`, and `calculateValueSize` filters
them with `Object.entries(value).filter(([, val]) => val !== undefined)`. -/
def serializedFields (kvs : List (String × JsValue)) : List (String × JsValue) :=
  kvs.filter fun p => !(p.2 == JsValue.undefined)

theorem sizeOf_lt_of_mem_arr {x : JsValue} {xs : List JsValue} (h : x ∈ xs) :
    sizeOf x < sizeOf (JsValue.arr xs) := by
  have := List.sizeOf_lt_of_mem h
  simp only [JsValue.arr.sizeOf_spec]
  omega

theorem sizeOf_snd_lt_of_mem_obj {p : String × JsValue} {kvs : List (String × JsValue)}
    (h : p ∈ kvs) : sizeOf p.2 < sizeOf (JsValue.obj kvs) := by
  have h1 := List.sizeOf_lt_of_mem h
  have h2 : sizeOf p.2 < sizeOf p := by
    obtain ⟨a, b⟩ := p
    simp only [Prod.mk.sizeOf_spec]
    omega
  simp only [JsValue.obj.sizeOf_spec]
  omega

/-- Comma-separated join, as the serialization loops emit it. -/
def joinComma : List String → String
  | [] => ""
  | [x] => x
  | x :: y :: t => x ++ "," ++ joinComma (y :: t)

theorem utf8Len_joinComma (l : List String) :
    utf8Len (joinComma l) = (l.map utf8Len).sum + (l.length - 1) := by
  match l with
  | [] => rfl
  | [x] => simp [joinComma]
  | x :: y :: t =>
    have ih := utf8Len_joinComma (y :: t)
    simp only [joinComma, utf8Len_append, ih, List.map_cons, List.sum_cons, List.length_cons]
    have : utf8Len "," = 1 := by decide
    omega

/-- Whitespace-free `JSON.stringify` output for a value.  This is the
reference serialization the spec's size claims compare against: `undefined`
entries of an object are omitted, `undefined` array elements print as
`null` (`JSON.stringify` semantics).  `serialize` of a top-level `undefined` is
left as the empty string; no claim evaluates it there. -/
def serialize : JsValue → String
  | .null => "null"
  | .undefined => ""
  | .bool true => "true"
  | .bool false => "false"
  | .num r => r
  | .str s => jsonQuote s
  | .arr xs =>
    "[" ++ joinComma (xs.attach.map fun x =>
      if x.1 = JsValue.undefined then "null" else serialize x.1) ++ "]"
  | .obj kvs =>
    "\x7b" ++ joinComma ((serializedFields kvs).attach.map fun p =>
      jsonQuote p.1.1 ++ ":" ++ serialize p.1.2) ++ "\x7d"
termination_by v => sizeOf v
decreasing_by
  · exact sizeOf_lt_of_mem_arr x.2
  · exact sizeOf_snd_lt_of_mem_obj (List.mem_of_mem_filter p.2)

/-- Embedding of `calculateValueSize` (src/unnamed/part_004, lines 540-592).
`null` costs 4 bytes, `undefined` 0; strings are measured through
`JSON.stringify` (`jsonQuote`); a number costs the byte length of its
canonical decimal string (`value.toString()`); booleans cost
`value.toString()`; an array costs 2 bracket bytes plus element sizes plus
one comma per separator; an object costs 2 brace bytes plus, for each entry
whose value is defined, the key wrapped in two raw quote characters (the
source writes `` `"${key}"` `` without escaping), one colon byte and the
value, plus one comma per separator. -/
def calculateValueSize : JsValue → Nat
  | .null => 4
  | .undefined => 0
  | .str s => utf8Len (jsonQuote s)
  | .num r => utf8Len r
  | .bool b => utf8Len (if b then "true" else "false")
  | .arr xs =>
    2 + ((xs.attach.map fun x => calculateValueSize x.1).sum + (xs.length - 1))
  | .obj kvs =>
    let entries := serializedFields kvs
    2 + ((entries.attach.map fun p =>
      utf8Len ("\"" ++ p.1.1 ++ "\"") + 1 + calculateValueSize p.1.2).sum
      + (entries.length - 1))
termination_by v => sizeOf v
decreasing_by
  · exact sizeOf_lt_of_mem_arr x.2
  · exact sizeOf_snd_lt_of_mem_obj (List.mem_of_mem_filter p.2)

theorem serialize_arr (xs : List JsValue) :
    serialize (JsValue.arr xs) =
      "[" ++ joinComma (xs.map fun x =>
        if x = JsValue.undefined then "null" else serialize x) ++ "]" := by
  rw [serialize]
  congr 2
  rw [List.map_attach]
  simp

theorem serialize_obj (kvs : List (String × JsValue)) :
    serialize (JsValue.obj kvs) =
      "\x7b" ++ joinComma ((serializedFields kvs).map fun p =>
        jsonQuote p.1 ++ ":" ++ serialize p.2) ++ "\x7d" := by
  rw [serialize]
  congr 2
  rw [List.map_attach]
  simp

theorem calculateValueSize_arr (xs : List JsValue) :
    calculateValueSize (JsValue.arr xs) =
      2 + ((xs.map calculateValueSize).sum + (xs.length - 1)) := by
  rw [calculateValueSize]
  congr 2
  rw [List.map_attach]
  simp

theorem calculateValueSize_obj (kvs : List (String × JsValue)) :
    calculateValueSize (JsValue.obj kvs) =
      2 + (((serializedFields kvs).map fun p =>
        utf8Len ("\"" ++ p.1 ++ "\"") + 1 + calculateValueSize p.2).sum
        + ((serializedFields kvs).length - 1)) := by
  rw [calculateValueSize]
  congr 2
  rw [List.map_attach]
  simp

/-- Structural induction for `JsValue` with element-wise hypotheses over the
nested lists. -/
theorem JsValue.myInduction (P : JsValue → Prop)
    (hnull : P .null) (hundefined : P .undefined)
    (hbool : ∀ b, P (.bool b)) (hnum : ∀ r, P (.num r)) (hstr : ∀ s, P (.str s))
    (harr : ∀ xs, (∀ x ∈ xs, P x) → P (.arr xs))
    (hobj : ∀ kvs, (∀ p ∈ kvs, P p.2) → P (.obj kvs)) :
    ∀ v, P v
  | .null => hnull
  | .undefined => hundefined
  | .bool b => hbool b
  | .num r => hnum r
  | .str s => hstr s
  | .arr xs => harr xs fun x hx =>
      JsValue.myInduction P hnull hundefined hbool hnum hstr harr hobj x
  | .obj kvs => hobj kvs fun p hp =>
      JsValue.myInduction P hnull hundefined hbool hnum hstr harr hobj p.2
termination_by v => sizeOf v
decreasing_by
  · exact sizeOf_lt_of_mem_arr hx
  · exact sizeOf_snd_lt_of_mem_obj hp

/-- `undefined` does not occur inside the value; every value produced by
`JSON.parse` satisfies this. -/
def noUndefined : JsValue → Bool
  | .undefined => false
  | .arr xs => xs.attach.all fun x => noUndefined x.1
  | .obj kvs => kvs.attach.all fun p => noUndefined p.1.2
  | _ => true
termination_by v => sizeOf v
decreasing_by
  · exact sizeOf_lt_of_mem_arr x.2
  · exact sizeOf_snd_lt_of_mem_obj p.2

/-- Every object key of the value, at every depth, consists only of
characters that JSON string escaping copies unchanged. -/
def plainKeysOk : JsValue → Bool
  | .arr xs => xs.attach.all fun x => plainKeysOk x.1
  | .obj kvs => kvs.attach.all fun p => p.1.1.data.all plainChar && plainKeysOk p.1.2
  | _ => true
termination_by v => sizeOf v
decreasing_by
  · exact sizeOf_lt_of_mem_arr x.2
  · exact sizeOf_snd_lt_of_mem_obj p.2

theorem noUndefined_arr (xs : List JsValue) :
    noUndefined (JsValue.arr xs) = xs.all noUndefined := by
  rw [noUndefined]
  rw [Bool.eq_iff_iff, List.all_eq_true, List.all_eq_true]
  constructor
  · intro h x hx; exact h ⟨x, hx⟩ (List.mem_attach _ _)
  · intro h x _; exact h x.1 x.2

theorem noUndefined_obj (kvs : List (String × JsValue)) :
    noUndefined (JsValue.obj kvs) = kvs.all fun p => noUndefined p.2 := by
  rw [noUndefined]
  rw [Bool.eq_iff_iff, List.all_eq_true, List.all_eq_true]
  constructor
  · intro h p hp; exact h ⟨p, hp⟩ (List.mem_attach _ _)
  · intro h p _; exact h p.1 p.2

theorem plainKeysOk_arr (xs : List JsValue) :
    plainKeysOk (JsValue.arr xs) = xs.all plainKeysOk := by
  rw [plainKeysOk]
  rw [Bool.eq_iff_iff, List.all_eq_true, List.all_eq_true]
  constructor
  · intro h x hx; exact h ⟨x, hx⟩ (List.mem_attach _ _)
  · intro h x _; exact h x.1 x.2

theorem plainKeysOk_obj (kvs : List (String × JsValue)) :
    plainKeysOk (JsValue.obj kvs)
      = kvs.all fun p => p.1.data.all plainChar && plainKeysOk p.2 := by
  rw [plainKeysOk]
  rw [Bool.eq_iff_iff, List.all_eq_true, List.all_eq_true]
  constructor
  · intro h p hp; exact h ⟨p, hp⟩ (List.mem_attach _ _)
  · intro h p _; exact h p.1 p.2

theorem utf8Len_jsonQuote_plain {k : String} (h : k.data.all plainChar = true) :
    utf8Len (jsonQuote k) = utf8Len ("\"" ++ k ++ "\"") := by
  rw [List.all_eq_true] at h
  simp only [jsonQuote, utf8Len_append, utf8Len_strConcat]
  have : (k.data.map escapeChar).map utf8Len = k.data.map Char.utf8Size := by
    rw [List.map_map]
    apply List.map_congr_left
    intro c hc
    simp only [Function.comp_apply, escapeChar_plain (h c hc), utf8Len_singleton]
  rw [this]
  rfl

theorem ne_undefined_of_noUndefined {x : JsValue} (h : noUndefined x = true) : x ≠ JsValue.undefined := by
  intro he; rw [he] at h; simp [noUndefined] at h

theorem serializedFields_eq_self {kvs : List (String × JsValue)}
    (h : ∀ p ∈ kvs, noUndefined p.2 = true) : serializedFields kvs = kvs := by
  apply List.filter_eq_self.mpr
  intro p hp
  simp only [Bool.not_eq_eq_eq_not, Bool.not_true, beq_eq_false_iff_ne, ne_eq]
  exact ne_undefined_of_noUndefined (h p hp)

/-- On values without `undefined` whose object keys contain no character
that JSON escaping rewrites, `calculateValueSize` agrees with the UTF-8
byte length of the compact `JSON.stringify` serialization. -/
theorem calculateValueSize_eq_utf8Len_serialize (v : JsValue) :
    noUndefined v = true → plainKeysOk v = true →
    calculateValueSize v = utf8Len (serialize v) := by
  induction v using JsValue.myInduction with
  | hnull => intro _ _; rw [calculateValueSize, serialize]; decide
  | hundefined => intro hu _; simp [noUndefined] at hu
  | hbool b => intro _ _; cases b <;> (rw [calculateValueSize, serialize]; decide)
  | hnum r => intro _ _; rw [calculateValueSize, serialize]
  | hstr s => intro _ _; rw [calculateValueSize, serialize]
  | harr xs ih =>
    intro hu hk
    rw [noUndefined_arr, List.all_eq_true] at hu
    rw [plainKeysOk_arr, List.all_eq_true] at hk
    rw [calculateValueSize_arr, serialize_arr]
    have h1 : (xs.map fun x => if x = JsValue.undefined then "null" else serialize x)
        = xs.map serialize := by
      apply List.map_congr_left
      intro x hx
      exact if_neg (ne_undefined_of_noUndefined (hu x hx))
    rw [h1, utf8Len_append, utf8Len_append, utf8Len_joinComma, List.map_map]
    have h2 : xs.map (utf8Len ∘ serialize) = xs.map calculateValueSize := by
      apply List.map_congr_left
      intro x hx
      exact (ih x hx (hu x hx) (hk x hx)).symm
    rw [h2, List.length_map]
    have e1 : utf8Len "[" = 1 := by decide
    have e2 : utf8Len "]" = 1 := by decide
    omega
  | hobj kvs ih =>
    intro hu hk
    rw [noUndefined_obj, List.all_eq_true] at hu
    rw [plainKeysOk_obj, List.all_eq_true] at hk
    have hfil : serializedFields kvs = kvs := serializedFields_eq_self hu
    rw [calculateValueSize_obj, serialize_obj, hfil]
    rw [utf8Len_append, utf8Len_append, utf8Len_joinComma, List.map_map]
    have h2 : kvs.map (utf8Len ∘ fun p => jsonQuote p.1 ++ ":" ++ serialize p.2)
        = kvs.map fun p => utf8Len ("\"" ++ p.1 ++ "\"") + 1 + calculateValueSize p.2 := by
      apply List.map_congr_left
      intro p hp
      have hk' := hk p hp
      rw [Bool.and_eq_true] at hk'
      simp only [Function.comp_apply, utf8Len_append]
      rw [utf8Len_jsonQuote_plain hk'.1, ← ih p hp (hu p hp) hk'.2]
      have e3 : utf8Len ":" = 1 := by decide
      rw [utf8Len_append, utf8Len_append, e3]
    rw [h2, List.length_map]
    have e1 : utf8Len "\x7b" = 1 := by decide
    have e2 : utf8Len "\x7d" = 1 := by decide
    omega

/-- Claim C1 as stated is false: for the valid JSON document
`JSON.parse` of a document with the single key `a"b` (value `1`),
`calculateValueSize` returns 9 while the whitespace-free re-serialization
occupies 10 bytes, because the source measures object keys as
`` `"${key}"` `` without JSON escaping while `JSON.stringify` escapes the
inner quote as `\"`. -/
theorem claim_C1_counterexample :
    noUndefined (JsValue.obj [("a\"b", JsValue.num "1")]) = true ∧
    calculateValueSize (JsValue.obj [("a\"b", JsValue.num "1")])
      ≠ utf8Len (serialize (JsValue.obj [("a\"b", JsValue.num "1")])) := by
  constructor
  · simp [noUndefined_obj, noUndefined]
  · simp [calculateValueSize_obj, calculateValueSize, serializedFields, serialize_obj,
      serialize, jsonQuote, strConcat, escapeChar, joinComma, utf8Len]
    decide

/-- Claim C1 (amended): for every parsed JSON value (no `undefined`
inside) all of whose object keys, at every depth, consist only of
characters that JSON string escaping copies unchanged (no `"`, no `\`,
no control characters), `calculateValueSize` returns exactly the UTF-8
byte length of the value re-serialized as whitespace-free JSON; in
particular it returns 7 on the parse of a one-key document with key `a`
and value `1`. -/
theorem claim_C1_sizeOf_matches_serialization (v : JsValue)
    (hu : noUndefined v = true) (hk : plainKeysOk v = true) :
    calculateValueSize v = utf8Len (serialize v) :=
  calculateValueSize_eq_utf8Len_serialize v hu hk

theorem claim_C1_sizeOf_matches_serialization_witness :
    noUndefined (JsValue.obj [("a", JsValue.num "1")]) = true ∧
    plainKeysOk (JsValue.obj [("a", JsValue.num "1")]) = true ∧
    calculateValueSize (JsValue.obj [("a", JsValue.num "1")])
      = utf8Len (serialize (JsValue.obj [("a", JsValue.num "1")])) ∧
    calculateValueSize (JsValue.obj [("a", JsValue.num "1")]) = 7 := by
  refine ⟨?h1, ?h2, ?h3, ?h4⟩
  case h1 => simp [noUndefined_obj, noUndefined]
  case h2 => simp [plainKeysOk_obj, plainKeysOk, plainChar]
  case h3 =>
    exact claim_C1_sizeOf_matches_serialization _
      (by simp [noUndefined_obj, noUndefined]) (by simp [plainKeysOk_obj, plainKeysOk, plainChar])
  case h4 =>
    simp [calculateValueSize_obj, calculateValueSize, serializedFields, utf8Len]
    decide

/-! ## Shape projector (`extractWithShape`, src/unnamed/part_004 lines 520-535) -/

/-- A shape rule: `true` (include the field verbatim) or a nested shape.
The TypeScript type is `Shape = { [key: string]: true | Shape }`. -/
inductive Rule where
  | inc
  | nested (s : List (String × Rule))
deriving Repr

/-- A shape: ordered keys, each mapped to a `Rule`. -/
abbrev Shape := List (String × Rule)

/-- First-match association-list lookup, the JS own-property read on an
object value. -/
def lookupJs (kvs : List (String × JsValue)) (k : String) : Option JsValue :=
  (kvs.find? fun p => p.1 == k).map Prod.snd

/-- JS property read `data[key]` on the values this program traverses:
reading from `null` or `undefined` throws a `TypeError` (modelled as
`Except.error`); an object yields the named own property or `undefined`;
a primitive yields `undefined` (prototype-inherited properties such as a
string's `length` are outside the parsed-JSON data model). -/
def getProp : JsValue → String → Except Unit JsValue
  | .null, _ => .error ()
  | .undefined, _ => .error ()
  | .obj kvs, k => .ok ((lookupJs kvs k).getD .undefined)
  | _, _ => .ok .undefined

/-- JS property assignment `result[key] = v` on an object represented as
an ordered association list: an existing key keeps its position and gets
the new value, a fresh key is appended. -/
def jsSet : List (String × JsValue) → String → JsValue → List (String × JsValue)
  | [], k, v => [(k, v)]
  | (k', v') :: t, k, v => if k' = k then (k', v) :: t else (k', v') :: jsSet t k v

theorem sizeOf_lt_of_getProp {d : JsValue} {k : String} {v : JsValue}
    (h : getProp d k = .ok v) (hv : ¬ v = JsValue.undefined) : sizeOf v < sizeOf d := by
  match d with
  | .null => simp [getProp] at h
  | .undefined => simp [getProp] at h
  | .bool _ | .num _ | .str _ | .arr _ =>
    simp [getProp] at h; exact absurd h.symm hv
  | .obj kvs =>
    simp only [getProp, Except.ok.injEq] at h
    match hl : lookupJs kvs k with
    | none => rw [hl] at h; exact absurd h.symm hv
    | some w =>
      rw [hl] at h
      simp only [Option.getD_some] at h
      subst h
      have hmem : ∃ p ∈ kvs, p.2 = w := by
        simp only [lookupJs, Option.map_eq_some'] at hl
        obtain ⟨p, hp1, hp2⟩ := hl
        exact ⟨p, List.mem_of_find?_eq_some hp1, hp2⟩
      obtain ⟨p, hp, hpw⟩ := hmem
      rw [← hpw]
      exact sizeOf_snd_lt_of_mem_obj hp

mutual

/-- Embedding of `extractWithShape` (src/unnamed/part_004 lines 520-535):
an array maps the same shape over every element; any other value builds a
fresh object by walking the shape's keys in order, copying `data[key]`
verbatim for an `Include` (`true`) rule — the key is emitted even when the
read yields `undefined` — and recursing for a nested rule unless the read
yields `undefined`.  A thrown `TypeError` (property read on `null`)
surfaces as `Except.error`. -/
def extractWithShape (data : JsValue) (shape : Shape) : Except Unit JsValue :=
  match data with
  | .arr xs =>
    match extractList shape xs with
    | .ok ys => .ok (.arr ys)
    | .error e => .error e
  | d =>
    match extractFields d shape [] with
    | .ok fields => .ok (.obj fields)
    | .error e => .error e
termination_by (sizeOf data, sizeOf shape + 1)
decreasing_by
  · apply Prod.Lex.left
    simp only [JsValue.arr.sizeOf_spec]
    omega
  · apply Prod.Lex.right
    omega

/-- `data.map(item => extractWithShape(item, shape))`, stopping at the
first thrown error. -/
def extractList (shape : Shape) : List JsValue → Except Unit (List JsValue)
  | [] => .ok []
  | x :: xs =>
    match extractWithShape x shape with
    | .error e => .error e
    | .ok y =>
      match extractList shape xs with
      | .error e => .error e
      | .ok ys => .ok (y :: ys)
termination_by l => (sizeOf l, sizeOf shape + 1)
decreasing_by
  · apply Prod.Lex.left
    simp only [List.cons.sizeOf_spec]
    omega
  · apply Prod.Lex.left
    simp only [List.cons.sizeOf_spec]
    omega

/-- The `for (const key in shape)` loop of `extractWithShape`, carried
over the remaining shape entries with the object built so far. -/
def extractFields (data : JsValue) :
    Shape → List (String × JsValue) → Except Unit (List (String × JsValue))
  | [], acc => .ok acc
  | (k, Rule.inc) :: rest, acc =>
    match getProp data k with
    | .error e => .error e
    | .ok v => extractFields data rest (jsSet acc k v)
  | (k, Rule.nested ns) :: rest, acc =>
    match hg : getProp data k with
    | .error e => .error e
    | .ok v =>
      if hv : v = JsValue.undefined then extractFields data rest acc
      else
        match extractWithShape v ns with
        | .error e => .error e
        | .ok r => extractFields data rest (jsSet acc k r)
termination_by entries _ => (sizeOf data, sizeOf entries)
decreasing_by
  · apply Prod.Lex.right
    simp only [List.cons.sizeOf_spec]
    omega
  · apply Prod.Lex.right
    simp only [List.cons.sizeOf_spec]
    omega
  · apply Prod.Lex.left
    exact sizeOf_lt_of_getProp hg hv
  · apply Prod.Lex.right
    simp only [List.cons.sizeOf_spec]
    omega

end

/-- The array test `Array.isArray(data)` of the source. -/
def isArr : JsValue → Bool
  | .arr _ => true
  | _ => false

/-- Claim C9 as stated is false for arrays: projecting the array `[]`
with the empty shape returns the array `[]`, not the empty object,
because `extractWithShape` maps the shape over array elements before the
object-building branch is reached. -/
theorem claim_C9_counterexample :
    extractWithShape (JsValue.arr []) [] = .ok (JsValue.arr []) ∧
    extractWithShape (JsValue.arr []) [] ≠ .ok (JsValue.obj []) := by
  constructor
  · simp [extractWithShape, extractList]
  · simp [extractWithShape, extractList]

/-- Claim C9 (amended): projecting any non-array value — in particular
any object — with the empty shape yields the empty object; an array is
instead projected elementwise, so the empty shape yields an array of
empty projections rather than the empty object. -/
theorem claim_C9_empty_shape (v : JsValue) (h : isArr v = false) :
    extractWithShape v [] = .ok (JsValue.obj []) := by
  match v with
  | .arr _ => simp [isArr] at h
  | .null | .undefined | .bool _ | .num _ | .str _ | .obj _ =>
    simp [extractWithShape, extractFields]

theorem claim_C9_empty_shape_witness :
    isArr (JsValue.obj [("a", JsValue.num "1")]) = false ∧
    extractWithShape (JsValue.obj [("a", JsValue.num "1")]) [] = .ok (JsValue.obj []) :=
  ⟨rfl, claim_C9_empty_shape _ rfl⟩

/-- `extractList` returns a list of the same length whose entries are the
elementwise projections. -/
theorem extractList_spec (s : Shape) : ∀ xs ys : List JsValue,
    extractList s xs = .ok ys →
    ys.length = xs.length ∧
      ∀ i (hx : i < xs.length) (hy : i < ys.length),
        extractWithShape (xs.get ⟨i, hx⟩) s = .ok (ys.get ⟨i, hy⟩) := by
  intro xs
  induction xs with
  | nil =>
    intro ys h
    rw [extractList] at h
    cases h
    refine ⟨rfl, ?_⟩
    intro i hx hy
    simp at hx
  | cons x xs ih =>
    intro ys h
    rw [extractList] at h
    cases h1 : extractWithShape x s with
    | error e => rw [h1] at h; cases h
    | ok y =>
      rw [h1] at h
      cases h2 : extractList s xs with
      | error e => rw [h2] at h; cases h
      | ok ys' =>
        rw [h2] at h
        cases h
        obtain ⟨hlen, hidx⟩ := ih ys' h2
        refine ⟨by simp [hlen], ?_⟩
        intro i hx hy
        match i with
        | 0 => simpa using h1
        | j + 1 =>
          simp only [List.get_cons_succ]
          exact hidx j (by simpa using hx) (by simpa using hy)

/-- Claim C2: projecting an array applies the same shape independently to
every element: a successful projection of `arr xs` is an array of the
same length whose i-th entry is the projection of the i-th element. -/
theorem claim_C2_array_projection (s : Shape) (xs : List JsValue) (r : JsValue)
    (h : extractWithShape (JsValue.arr xs) s = .ok r) :
    ∃ ys : List JsValue, r = JsValue.arr ys ∧ ys.length = xs.length ∧
      ∀ i (hx : i < xs.length) (hy : i < ys.length),
        extractWithShape (xs.get ⟨i, hx⟩) s = .ok (ys.get ⟨i, hy⟩) := by
  rw [extractWithShape] at h
  cases he : extractList s xs with
  | error e => rw [he] at h; cases h
  | ok ys =>
    rw [he] at h
    cases h
    obtain ⟨hlen, hidx⟩ := extractList_spec s xs ys he
    exact ⟨ys, rfl, hlen, hidx⟩

theorem claim_C2_array_projection_witness :
    ∃ ys : List JsValue,
      JsValue.arr [JsValue.obj [("a", JsValue.num "1")]] = JsValue.arr ys ∧
      ys.length = [JsValue.obj [("a", JsValue.num "1")]].length ∧
      ∀ i (hx : i < [JsValue.obj [("a", JsValue.num "1")]].length) (hy : i < ys.length),
        extractWithShape ([JsValue.obj [("a", JsValue.num "1")]].get ⟨i, hx⟩) [("a", Rule.inc)]
          = .ok (ys.get ⟨i, hy⟩) :=
  claim_C2_array_projection [("a", Rule.inc)] [JsValue.obj [("a", JsValue.num "1")]]
    (JsValue.arr [JsValue.obj [("a", JsValue.num "1")]])
    (by simp [extractWithShape, extractList, extractFields, getProp, lookupJs, jsSet])

/-- The shape-entry loop processes a concatenation sequentially. -/
theorem extractFields_append (d : JsValue) (s₁ s₂ : Shape) :
    ∀ acc, extractFields d (s₁ ++ s₂) acc =
      match extractFields d s₁ acc with
      | .ok acc' => extractFields d s₂ acc'
      | .error e => .error e := by
  induction s₁ with
  | nil => intro acc; simp [extractFields]
  | cons e rest ih =>
    intro acc
    obtain ⟨k, rule⟩ := e
    cases rule with
    | inc =>
      rw [List.cons_append, extractFields, extractFields]
      cases hg : getProp d k with
      | error e => simp
      | ok v => simp [ih]
    | nested ns =>
      rw [List.cons_append, extractFields, extractFields]
      cases hg : getProp d k with
      | error e => simp
      | ok v =>
        by_cases hv : v = JsValue.undefined
        · simp [hv, ih]
        · simp only [hv, dite_false, dif_neg hv]
          cases extractWithShape v ns with
          | error e => simp
          | ok r => simp [ih]

/-- Claim C6 as stated is false for `null`: with the document
`{"a": null}` and the shape mapping `a` to the nested shape
`{"b": true}`, the projector recurses into `null` (since
`null !== undefined`) and the property read `null["b"]` throws a
`TypeError`, so the projection errors instead of silently dropping the
key. -/
theorem claim_C6_counterexample :
    extractWithShape (JsValue.obj [("a", JsValue.null)])
      [("a", Rule.nested [("b", Rule.inc)])] = .error () := by
  simp [extractWithShape, extractFields, getProp, lookupJs, jsSet]

/-- Claim C6 (amended): a shape key mapped to a nested shape whose
corresponding document value is absent (or `undefined`) is silently
dropped from the output and never produces an error — removing such an
entry from the shape does not change the projection at all.  When the
corresponding value is `null`, however, the projector does recurse, and
the recursion throws whenever the nested shape is non-empty. -/
theorem extractWithShape_notArr {d : JsValue} (h : isArr d = false) (s : Shape) :
    extractWithShape d s =
      match extractFields d s [] with
      | .ok fields => .ok (.obj fields)
      | .error e => .error e := by
  match d with
  | .arr _ => simp [isArr] at h
  | .null | .undefined | .bool _ | .num _ | .str _ | .obj _ => simp [extractWithShape]

theorem claim_C6_nested_absent (kvs : List (String × JsValue)) (k : String)
    (ns : List (String × Rule)) (s₁ s₂ : Shape)
    (habs : lookupJs kvs k = none) :
    extractWithShape (JsValue.obj kvs) (s₁ ++ (k, Rule.nested ns) :: s₂)
      = extractWithShape (JsValue.obj kvs) (s₁ ++ s₂) ∧
    ∀ s : Shape, s ≠ [] → extractWithShape JsValue.null s = .error () := by
  constructor
  · have hstep : ∀ acc, extractFields (JsValue.obj kvs) ((k, Rule.nested ns) :: s₂) acc
        = extractFields (JsValue.obj kvs) s₂ acc := by
      intro acc
      simp [extractFields, getProp, habs]
    rw [extractWithShape_notArr (d := JsValue.obj kvs) rfl,
      extractWithShape_notArr (d := JsValue.obj kvs) rfl,
      extractFields_append, extractFields_append]
    cases extractFields (JsValue.obj kvs) s₁ [] with
    | error e => rfl
    | ok acc' => simp [hstep]
  · intro s hs
    match s with
    | [] => exact absurd rfl hs
    | (k', rule) :: rest =>
      cases rule with
      | inc =>
        rw [extractWithShape_notArr (d := JsValue.null) rfl]
        simp [extractFields, getProp]
      | nested ns' =>
        rw [extractWithShape_notArr (d := JsValue.null) rfl]
        simp [extractFields, getProp]

theorem claim_C6_nested_absent_witness :
    extractWithShape (JsValue.obj [("b", JsValue.num "2")])
        ([] ++ ("a", Rule.nested [("x", Rule.inc)]) :: [("b", Rule.inc)])
      = extractWithShape (JsValue.obj [("b", JsValue.num "2")]) ([] ++ [("b", Rule.inc)]) ∧
    ∀ s : Shape, s ≠ [] → extractWithShape JsValue.null s = .error () :=
  claim_C6_nested_absent [("b", JsValue.num "2")] "a" [("x", Rule.inc)]
    [] [("b", Rule.inc)] (by simp [lookupJs])

/-- The keys of an association list, in order. -/
def keysOf (l : List (String × JsValue)) : List String :=
  l.map Prod.fst

theorem lookupJs_cons_self (k : String) (v : JsValue) (t : List (String × JsValue)) :
    lookupJs ((k, v) :: t) k = some v := by
  simp [lookupJs, List.find?_cons]

theorem lookupJs_cons_ne {k₁ k : String} (h : k₁ ≠ k) (v₁ : JsValue)
    (t : List (String × JsValue)) :
    lookupJs ((k₁, v₁) :: t) k = lookupJs t k := by
  simp only [lookupJs, List.find?_cons]
  rw [show ((k₁, v₁).1 == k) = false by simpa using h]

theorem lookupJs_jsSet_self (l : List (String × JsValue)) (k : String) (v : JsValue) :
    lookupJs (jsSet l k v) k = some v := by
  induction l with
  | nil => simpa [jsSet] using lookupJs_cons_self k v []
  | cons p t ih =>
    obtain ⟨k', v'⟩ := p
    by_cases hk : k' = k
    · subst hk
      simpa [jsSet] using lookupJs_cons_self k' v t
    · rw [show jsSet ((k', v') :: t) k v = (k', v') :: jsSet t k v by simp [jsSet, hk]]
      rw [lookupJs_cons_ne hk]
      exact ih

theorem lookupJs_jsSet_ne (l : List (String × JsValue)) {k' k : String} (v : JsValue)
    (h : k' ≠ k) : lookupJs (jsSet l k' v) k = lookupJs l k := by
  induction l with
  | nil =>
    show lookupJs [(k', v)] k = lookupJs [] k
    rw [lookupJs_cons_ne h]
  | cons p t ih =>
    obtain ⟨k₁, v₁⟩ := p
    by_cases hk : k₁ = k'
    · subst hk
      rw [show jsSet ((k₁, v₁) :: t) k₁ v = (k₁, v) :: t by simp [jsSet]]
      rw [lookupJs_cons_ne h, lookupJs_cons_ne h]
    · rw [show jsSet ((k₁, v₁) :: t) k' v = (k₁, v₁) :: jsSet t k' v by simp [jsSet, hk]]
      by_cases hq : k₁ = k
      · subst hq
        rw [lookupJs_cons_self, lookupJs_cons_self]
      · rw [lookupJs_cons_ne hq, lookupJs_cons_ne hq]
        exact ih

theorem mem_keysOf_jsSet {a : String} {l : List (String × JsValue)} {k : String} {v : JsValue}
    (h : a ∈ keysOf (jsSet l k v)) : a ∈ keysOf l ∨ a = k := by
  induction l with
  | nil => simp [jsSet, keysOf] at h; right; exact h
  | cons p t ih =>
    obtain ⟨k₁, v₁⟩ := p
    by_cases hk : k₁ = k
    · subst hk
      rw [show jsSet ((k₁, v₁) :: t) k₁ v = (k₁, v) :: t by simp [jsSet]] at h
      simp only [keysOf, List.map_cons, List.mem_cons] at h ⊢
      tauto
    · rw [show jsSet ((k₁, v₁) :: t) k v = (k₁, v₁) :: jsSet t k v by simp [jsSet, hk]] at h
      simp only [keysOf, List.map_cons, List.mem_cons] at h ⊢
      cases h with
      | inl h1 => left; left; exact h1
      | inr h1 =>
        cases ih h1 with
        | inl h2 => left; right; exact h2
        | inr h2 => right; exact h2

theorem nodup_keysOf_jsSet {l : List (String × JsValue)} (k : String) (v : JsValue)
    (h : (keysOf l).Nodup) : (keysOf (jsSet l k v)).Nodup := by
  induction l with
  | nil => simp [jsSet, keysOf]
  | cons p t ih =>
    obtain ⟨k₁, v₁⟩ := p
    simp only [keysOf, List.map_cons, List.nodup_cons] at h
    by_cases hk : k₁ = k
    · subst hk
      rw [show jsSet ((k₁, v₁) :: t) k₁ v = (k₁, v) :: t by simp [jsSet]]
      simp only [keysOf, List.map_cons, List.nodup_cons]
      exact h
    · rw [show jsSet ((k₁, v₁) :: t) k v = (k₁, v₁) :: jsSet t k v by simp [jsSet, hk]]
      simp only [keysOf, List.map_cons, List.nodup_cons]
      refine ⟨?_, ih h.2⟩
      intro hmem
      cases mem_keysOf_jsSet hmem with
      | inl h' => exact h.1 h'
      | inr h' => exact hk h'

theorem lookupJs_eq_none_of_not_mem {l : List (String × JsValue)} {k : String}
    (h : k ∉ keysOf l) : lookupJs l k = none := by
  induction l with
  | nil => rfl
  | cons p t ih =>
    obtain ⟨k₁, v₁⟩ := p
    simp only [keysOf, List.map_cons, List.mem_cons, not_or] at h
    rw [lookupJs_cons_ne (fun he => h.1 he.symm)]
    exact ih h.2

theorem mem_keysOf_of_mem_filter {a : String} {l : List (String × JsValue)}
    (h : a ∈ keysOf (serializedFields l)) : a ∈ keysOf l := by
  simp only [keysOf, List.mem_map] at h ⊢
  obtain ⟨p, hp, hpa⟩ := h
  exact ⟨p, List.mem_of_mem_filter hp, hpa⟩

/-- On an association list with distinct keys, a key held at `undefined`
vanishes entirely from the entries that serialization keeps. -/
theorem lookupJs_serializedFields_none {l : List (String × JsValue)} {k : String}
    (hnd : (keysOf l).Nodup) (h : lookupJs l k = some JsValue.undefined) :
    lookupJs (serializedFields l) k = none := by
  induction l with
  | nil => simp [lookupJs] at h
  | cons p t ih =>
    obtain ⟨k₁, v₁⟩ := p
    simp only [keysOf, List.map_cons, List.nodup_cons] at hnd
    by_cases hk : k₁ = k
    · subst hk
      rw [lookupJs_cons_self] at h
      have hv := Option.some.inj h
      subst hv
      rw [show serializedFields ((k₁, JsValue.undefined) :: t) = serializedFields t by
        simp [serializedFields]]
      apply lookupJs_eq_none_of_not_mem
      intro hmem
      exact hnd.1 (mem_keysOf_of_mem_filter hmem)
    · rw [lookupJs_cons_ne hk] at h
      have ihr := ih hnd.2 h
      by_cases hu : v₁ = JsValue.undefined
      · rw [show serializedFields ((k₁, v₁) :: t) = serializedFields t by
          simp [serializedFields, hu]]
        exact ihr
      · rw [show serializedFields ((k₁, v₁) :: t) = (k₁, v₁) :: serializedFields t by
          simp [serializedFields, List.filter_cons, hu]]
        rw [lookupJs_cons_ne hk]
        exact ihr

/-- Running the shape loop from an accumulator with distinct keys produces
a result with distinct keys. -/
theorem extractFields_nodup (d : JsValue) :
    ∀ (s : Shape) (acc res : List (String × JsValue)),
      (keysOf acc).Nodup → extractFields d s acc = .ok res → (keysOf res).Nodup := by
  intro s
  induction s with
  | nil =>
    intro acc res hnd h
    rw [extractFields] at h
    cases h
    exact hnd
  | cons e rest ih =>
    intro acc res hnd h
    obtain ⟨k, rule⟩ := e
    cases rule with
    | inc =>
      rw [extractFields] at h
      split at h
      · cases h
      · exact ih _ res (nodup_keysOf_jsSet k _ hnd) h
    | nested ns =>
      rw [extractFields] at h
      split at h
      · cases h
      · split at h
        · exact ih _ res hnd h
        · split at h
          · cases h
          · exact ih _ res (nodup_keysOf_jsSet k _ hnd) h

/-- If the looked-up key is absent from the document object, once an
`Include` entry for it has been processed (or the accumulator already
holds it at `undefined`), the loop's final object holds it at
`undefined`. -/
theorem extractFields_inc_undefined (kvs : List (String × JsValue)) (k : String)
    (habs : lookupJs kvs k = none) :
    ∀ (s : Shape) (acc res : List (String × JsValue)),
      extractFields (JsValue.obj kvs) s acc = .ok res →
      ((k, Rule.inc) ∈ s ∨ lookupJs acc k = some JsValue.undefined) →
      lookupJs res k = some JsValue.undefined := by
  intro s
  induction s with
  | nil =>
    intro acc res h hd
    rw [extractFields] at h
    cases h
    cases hd with
    | inl h' => exact absurd h' (List.not_mem_nil _)
    | inr h' => exact h'
  | cons e rest ih =>
    intro acc res h hd
    obtain ⟨k', rule⟩ := e
    cases rule with
    | inc =>
      rw [extractFields] at h
      split at h
      · cases h
      · rename_i v heq
        have hveq : v = (lookupJs kvs k').getD JsValue.undefined := by
          have hgv : getProp (JsValue.obj kvs) k'
              = .ok ((lookupJs kvs k').getD JsValue.undefined) := rfl
          rw [hgv] at heq
          exact (Except.ok.inj heq).symm
        apply ih _ res h
        by_cases hk : k' = k
        · subst hk
          right
          rw [hveq, habs]
          simpa using lookupJs_jsSet_self acc k' JsValue.undefined
        · cases hd with
          | inl hmem =>
            cases List.mem_cons.mp hmem with
            | inl he => exact absurd (congrArg Prod.fst he).symm hk
            | inr he => left; exact he
          | inr hacc =>
            right
            rw [lookupJs_jsSet_ne _ _ hk]
            exact hacc
    | nested ns =>
      rw [extractFields] at h
      split at h
      · cases h
      · rename_i v heq
        have hveq : v = (lookupJs kvs k').getD JsValue.undefined := by
          have hgv : getProp (JsValue.obj kvs) k'
              = .ok ((lookupJs kvs k').getD JsValue.undefined) := rfl
          rw [hgv] at heq
          exact (Except.ok.inj heq).symm
        split at h
        · apply ih _ res h
          cases hd with
          | inl hmem =>
            cases List.mem_cons.mp hmem with
            | inl he => cases he
            | inr he => left; exact he
          | inr hacc => right; exact hacc
        · rename_i hv
          have hk : k' ≠ k := by
            intro he
            subst he
            apply hv
            rw [hveq, habs]
            rfl
          split at h
          · cases h
          · apply ih _ res h
            cases hd with
            | inl hmem =>
              cases List.mem_cons.mp hmem with
              | inl he => cases he
              | inr he => left; exact he
            | inr hacc =>
              right
              rw [lookupJs_jsSet_ne _ _ hk]
              exact hacc

/-- Claim C7: a shape key mapped to `Include` whose source value is absent
from the document object is emitted in the raw projection with the
`undefined` marker, which serialization omits entirely: the key does not
occur among the serialized entries, and in particular it is never emitted
as `null`. -/
theorem claim_C7_include_absent_omitted (kvs : List (String × JsValue)) (s : Shape)
    (k : String) (res : List (String × JsValue))
    (habs : lookupJs kvs k = none) (hmem : (k, Rule.inc) ∈ s)
    (hok : extractWithShape (JsValue.obj kvs) s = .ok (JsValue.obj res)) :
    lookupJs res k = some JsValue.undefined ∧
    lookupJs (serializedFields res) k = none ∧
    ¬ lookupJs res k = some JsValue.null := by
  rw [extractWithShape_notArr (d := JsValue.obj kvs) rfl] at hok
  cases he : extractFields (JsValue.obj kvs) s [] with
  | error e => rw [he] at hok; cases hok
  | ok fields =>
    rw [he] at hok
    have hfr : fields = res := by
      cases hok
      rfl
    subst hfr
    have h1 := extractFields_inc_undefined kvs k habs s [] fields he (Or.inl hmem)
    have hnd := extractFields_nodup (JsValue.obj kvs) s [] fields (by simp [keysOf]) he
    refine ⟨h1, lookupJs_serializedFields_none hnd h1, ?_⟩
    intro hc
    rw [h1] at hc
    cases hc

theorem claim_C7_include_absent_omitted_witness :
    lookupJs [("a", JsValue.undefined)] "a" = some JsValue.undefined ∧
    lookupJs (serializedFields [("a", JsValue.undefined)]) "a" = none ∧
    ¬ lookupJs [("a", JsValue.undefined)] "a" = some JsValue.null :=
  claim_C7_include_absent_omitted [("b", JsValue.num "2")] [("a", Rule.inc)] "a"
    [("a", JsValue.undefined)]
    (by simp [lookupJs])
    (by simp)
    (by simp [extractWithShape, extractFields, getProp, lookupJs, jsSet])

/-! ## Size breakdowns and their merge (`addSizeBreakdowns`,
src/unnamed/part_004 lines 640-659) -/

/-- A size breakdown: a number leaf (byte count) or a mapping mirroring a
shape.  This is the value space `calculateSizeWithShape` produces and
`addSizeBreakdowns` merges. -/
inductive SB where
  | num (n : Nat)
  | obj (kvs : List (String × SB))
deriving Repr

/-- JS truthiness on breakdown values: the number 0 is falsy, every other
number and every object (including `{}`) is truthy. -/
def truthySB : SB → Bool
  | .num n => !(n == 0)
  | .obj _ => true

/-- First-match association-list lookup (JS own-property read). -/
def lookupSB (kvs : List (String × SB)) (k : String) : Option SB :=
  (kvs.find? fun p => p.1 == k).map Prod.snd

/-- The key list of a breakdown object. -/
def sbKeys (kvs : List (String × SB)) : List String :=
  kvs.map Prod.fst

/-- `breakdown[key] || 0`: a missing key reads as `undefined` and the
`|| 0` turns any falsy read (missing, or the number 0) into 0. -/
def getOr0 (kvs : List (String × SB)) (k : String) : SB :=
  match lookupSB kvs k with
  | some v => if truthySB v then v else .num 0
  | none => .num 0

/-- `new Set([...keys(b1), ...keys(b2)])` iterates in first-insertion
order: keep the first occurrence of each element. -/
def insertionDedup : List String → List String
  | [] => []
  | k :: ks => k :: insertionDedup (ks.filter fun x => !(x == k))
termination_by l => l.length
decreasing_by
  have := List.length_filter_le (fun x => !(x == k)) ks
  simp only [List.length_cons]
  omega

theorem sb_sizeOf_pos (x : SB) : 1 ≤ sizeOf x := by
  cases x with
  | num n => simp only [SB.num.sizeOf_spec]; omega
  | obj kvs => simp only [SB.obj.sizeOf_spec]; omega

theorem sb_list_sizeOf_pos (l : List (String × SB)) : 1 ≤ sizeOf l := by
  cases l with
  | nil => simp
  | cons p t => simp only [List.cons.sizeOf_spec]; omega

theorem sizeOf_lookupSB_lt {kvs : List (String × SB)} {k : String} {v : SB}
    (h : lookupSB kvs k = some v) : sizeOf v < sizeOf kvs := by
  simp only [lookupSB, Option.map_eq_some'] at h
  obtain ⟨p, hp1, hp2⟩ := h
  have hmem := List.mem_of_find?_eq_some hp1
  have h1 := List.sizeOf_lt_of_mem hmem
  have h2 : sizeOf v < sizeOf p := by
    obtain ⟨a, b⟩ := p
    cases hp2
    simp only [Prod.mk.sizeOf_spec]
    omega
  omega

theorem sizeOf_getOr0_le (kvs : List (String × SB)) (k : String) :
    sizeOf (getOr0 kvs k) ≤ sizeOf kvs := by
  have h0 : sizeOf (SB.num 0) = 1 := by
    simp only [SB.num.sizeOf_spec, sizeOf_nat]
  cases hl : lookupSB kvs k with
  | none =>
    rw [show getOr0 kvs k = SB.num 0 by rw [getOr0, hl]]
    have := sb_list_sizeOf_pos kvs
    omega
  | some v =>
    rw [show getOr0 kvs k = if truthySB v then v else SB.num 0 by rw [getOr0, hl]]
    have hlt := sizeOf_lookupSB_lt hl
    have := sb_list_sizeOf_pos kvs
    by_cases ht : truthySB v
    · rw [if_pos ht]; omega
    · rw [if_neg ht]; omega

/-- Embedding of `addSizeBreakdowns`: two numbers add; two objects merge
over the union of their keys in first-insertion order, each side reading
`breakdown[key] || 0`; mismatched kinds fall back to
`breakdown1 || breakdown2 || 0` (the first truthy operand, else 0). -/
def addSizeBreakdowns : SB → SB → SB
  | .num m, .num n => .num (m + n)
  | .obj xs, .obj ys =>
    .obj ((insertionDedup (sbKeys xs ++ sbKeys ys)).attach.map fun k =>
      (k.1, addSizeBreakdowns (getOr0 xs k.1) (getOr0 ys k.1)))
  | b1, b2 => if truthySB b1 then b1 else if truthySB b2 then b2 else .num 0
termination_by b1 b2 => sizeOf b1 + sizeOf b2
decreasing_by
  have h1 := sizeOf_getOr0_le xs k.1
  have h2 := sizeOf_getOr0_le ys k.1
  simp only [SB.obj.sizeOf_spec]
  omega

theorem addSizeBreakdowns_obj (xs ys : List (String × SB)) :
    addSizeBreakdowns (SB.obj xs) (SB.obj ys) =
      SB.obj ((insertionDedup (sbKeys xs ++ sbKeys ys)).map fun k =>
        (k, addSizeBreakdowns (getOr0 xs k) (getOr0 ys k))) := by
  rw [addSizeBreakdowns]
  congr 1
  rw [List.map_attach]
  simp

mutual

/-- Two breakdowns are compatible when no number leaf of one faces an
object of the other at any shared path — the situation for breakdowns
computed from a common shape, where an `Include` key is always a number
and a nested key is always an object. -/
def compatSB : SB → SB → Bool
  | .num _, .num _ => true
  | .obj xs, .obj ys => compatFields xs ys
  | _, _ => false
termination_by a b => sizeOf a + sizeOf b
decreasing_by
  simp only [SB.obj.sizeOf_spec]; omega

def compatFields : List (String × SB) → List (String × SB) → Bool
  | [], _ => true
  | (k, v) :: t, ys =>
    (match hw : lookupSB ys k with
     | some w => compatSB v w
     | none => true) && compatFields t ys
termination_by xs ys => sizeOf xs + sizeOf ys
decreasing_by
  · have h1 := sizeOf_lookupSB_lt hw
    simp only [List.cons.sizeOf_spec, Prod.mk.sizeOf_spec]
    omega
  · simp only [List.cons.sizeOf_spec]; omega

end

mutual

/-- Equality of breakdowns up to object key order: numbers must be equal,
objects must have the same key set and pointwise-equivalent values. -/
def sbEquiv : SB → SB → Bool
  | .num m, .num n => m == n
  | .obj xs, .obj ys =>
    (sbKeys ys).all (fun k => (sbKeys xs).contains k) && equivKeys (sbKeys xs) xs ys
  | _, _ => false
termination_by a b => (sizeOf a + sizeOf b, 0)
decreasing_by
  apply Prod.Lex.left
  simp only [SB.obj.sizeOf_spec]
  omega

def equivKeys : List String → List (String × SB) → List (String × SB) → Bool
  | [], _, _ => true
  | k :: kt, xs, ys =>
    (match hv : lookupSB xs k, hw : lookupSB ys k with
     | some v, some w => sbEquiv v w
     | _, _ => false) && equivKeys kt xs ys
termination_by kt xs ys => (sizeOf xs + sizeOf ys, kt.length)
decreasing_by
  · apply Prod.Lex.left
    have h1 := sizeOf_lookupSB_lt hv
    have h2 := sizeOf_lookupSB_lt hw
    omega
  · apply Prod.Lex.right
    simp only [List.length_cons]
    omega

end

theorem insertionDedup_cons (k : String) (t : List String) :
    insertionDedup (k :: t) = k :: insertionDedup (t.filter fun x => !(x == k)) := by
  rw [insertionDedup]

theorem mem_insertionDedup : ∀ (l : List String) (a : String),
    a ∈ insertionDedup l ↔ a ∈ l
  | [], a => by simp [insertionDedup]
  | k :: ks, a => by
    rw [insertionDedup_cons]
    have ih := mem_insertionDedup (ks.filter fun x => !(x == k)) a
    simp only [List.mem_cons, ih, List.mem_filter]
    constructor
    · rintro (h | ⟨h1, _⟩)
      · left; exact h
      · right; exact h1
    · rintro (h | h1)
      · left; exact h
      · by_cases hk : a = k
        · left; exact hk
        · right; exact ⟨h1, by simpa using hk⟩
termination_by l a => l.length
decreasing_by
  have := List.length_filter_le (fun x => !(x == k)) ks
  simp only [List.length_cons]
  omega

theorem filter_insertionDedup (p : String → Bool) : ∀ (l : List String),
    (insertionDedup l).filter p = insertionDedup (l.filter p)
  | [] => by rw [insertionDedup, List.filter_nil, insertionDedup]
  | k :: ks => by
    rw [insertionDedup_cons, List.filter_cons]
    by_cases hp : p k
    · rw [if_pos hp, List.filter_cons, if_pos hp, insertionDedup_cons]
      congr 1
      rw [filter_insertionDedup p (ks.filter fun x => !(x == k))]
      congr 1
      rw [List.filter_filter, List.filter_filter]
      apply List.filter_congr
      intro a _
      exact Bool.and_comm _ _
    · rw [if_neg hp, List.filter_cons, if_neg hp]
      rw [filter_insertionDedup p (ks.filter fun x => !(x == k))]
      congr 1
      rw [List.filter_filter]
      apply List.filter_congr
      intro a _
      by_cases ha : a = k
      · subst ha
        rw [show p a = false by simpa using hp]
        simp
      · rw [show (a == k) = false by simpa using ha]
        simp
termination_by l => l.length
decreasing_by
  all_goals
    have := List.length_filter_le (fun x => !(x == k)) ks
    simp only [List.length_cons]
    omega

theorem filter_ne_idem (k : String) (l : List String) :
    (l.filter fun x => !(x == k)).filter (fun x => !(x == k))
      = l.filter fun x => !(x == k) := by
  rw [List.filter_filter]
  apply List.filter_congr
  intro a _
  cases hb : a == k <;> simp

theorem insertionDedup_dedup_append : ∀ (l r : List String),
    insertionDedup (insertionDedup l ++ r) = insertionDedup (l ++ r)
  | [], r => by simp [insertionDedup]
  | k :: ks, r => by
    rw [insertionDedup_cons k ks, List.cons_append, List.cons_append,
      insertionDedup_cons, insertionDedup_cons]
    congr 1
    rw [List.filter_append, List.filter_append, filter_insertionDedup, filter_ne_idem]
    exact insertionDedup_dedup_append (ks.filter fun x => !(x == k))
      (r.filter fun x => !(x == k))
termination_by l r => l.length
decreasing_by
  have := List.length_filter_le (fun x => !(x == k)) ks
  simp only [List.length_cons]
  omega

theorem insertionDedup_append_dedup : ∀ (l r : List String),
    insertionDedup (l ++ insertionDedup r) = insertionDedup (l ++ r)
  | [], r => by simpa using insertionDedup_dedup_append r []
  | k :: ks, r => by
    rw [List.cons_append, List.cons_append, insertionDedup_cons, insertionDedup_cons]
    congr 1
    rw [List.filter_append, List.filter_append, filter_insertionDedup]
    exact insertionDedup_append_dedup (ks.filter fun x => !(x == k))
      (r.filter fun x => !(x == k))
termination_by l r => l.length
decreasing_by
  have := List.length_filter_le (fun x => !(x == k)) ks
  simp only [List.length_cons]
  omega

theorem eq_num_zero_of_not_truthy {x : SB} (h : truthySB x = false) : x = SB.num 0 := by
  cases x with
  | num n =>
    simp only [truthySB, Bool.not_eq_false'] at h
    rw [show n = 0 from by simpa using h]
  | obj kvs => simp [truthySB] at h

theorem ifTruthy_id (x : SB) : (if truthySB x then x else SB.num 0) = x := by
  by_cases ht : truthySB x
  · rw [if_pos ht]
  · rw [if_neg ht, eq_num_zero_of_not_truthy (Bool.eq_false_iff.mpr ht)]

theorem getOr0_some {kvs : List (String × SB)} {k : String} {v : SB}
    (h : lookupSB kvs k = some v) : getOr0 kvs k = v := by
  rw [getOr0, h]
  show (if truthySB v = true then v else SB.num 0) = v
  exact ifTruthy_id v

theorem getOr0_none {kvs : List (String × SB)} {k : String}
    (h : lookupSB kvs k = none) : getOr0 kvs k = SB.num 0 := by
  rw [getOr0, h]

theorem sbKeys_mapFn (ks : List String) (f : String → SB) :
    sbKeys (ks.map fun x => (x, f x)) = ks := by
  induction ks with
  | nil => rfl
  | cons a t ih => simp only [List.map_cons, sbKeys] at ih ⊢; rw [ih]

theorem lookupSB_mapFn (f : String → SB) : ∀ (ks : List String) (k : String),
    lookupSB (ks.map fun x => (x, f x)) k = if k ∈ ks then some (f k) else none := by
  intro ks
  induction ks with
  | nil => intro k; simp [lookupSB]
  | cons a t ih =>
    intro k
    by_cases ha : a = k
    · subst ha
      simp [lookupSB, List.find?_cons]
    · rw [List.map_cons]
      rw [show lookupSB ((a, f a) :: t.map fun x => (x, f x)) k
          = lookupSB (t.map fun x => (x, f x)) k from by
        simp only [lookupSB, List.find?_cons]
        rw [show ((a, f a).1 == k) = false by simpa using ha]]
      rw [ih k]
      by_cases hm : k ∈ t
      · rw [if_pos hm, if_pos (List.mem_cons_of_mem a hm)]
      · rw [if_neg hm, if_neg ?hc]
        case hc =>
          intro hc
          cases List.mem_cons.mp hc with
          | inl he => exact ha he.symm
          | inr hm2 => exact hm hm2

theorem addSB_zero_left (x : SB) : addSizeBreakdowns (SB.num 0) x = x := by
  cases x with
  | num n => simp [addSizeBreakdowns]
  | obj kvs => simp [addSizeBreakdowns, truthySB]

theorem addSB_zero_right (x : SB) : addSizeBreakdowns x (SB.num 0) = x := by
  cases x with
  | num n => simp [addSizeBreakdowns]
  | obj kvs => simp [addSizeBreakdowns, truthySB]

theorem lookupSB_eq_none_of_not_mem {kvs : List (String × SB)} {k : String}
    (h : k ∉ sbKeys kvs) : lookupSB kvs k = none := by
  induction kvs with
  | nil => rfl
  | cons p t ih =>
    obtain ⟨k₁, v₁⟩ := p
    simp only [sbKeys, List.map_cons, List.mem_cons, not_or] at h
    simp only [lookupSB, List.find?_cons]
    rw [show ((k₁, v₁).1 == k) = false by simpa using fun he => h.1 he.symm]
    exact ih h.2

theorem getOr0_addSB_obj (xs ys : List (String × SB)) (k : String) :
    getOr0 ((insertionDedup (sbKeys xs ++ sbKeys ys)).map fun k =>
        (k, addSizeBreakdowns (getOr0 xs k) (getOr0 ys k))) k
      = addSizeBreakdowns (getOr0 xs k) (getOr0 ys k) := by
  rw [getOr0, lookupSB_mapFn]
  by_cases hk : k ∈ insertionDedup (sbKeys xs ++ sbKeys ys)
  · rw [if_pos hk]
    show (if truthySB (addSizeBreakdowns (getOr0 xs k) (getOr0 ys k)) = true
        then addSizeBreakdowns (getOr0 xs k) (getOr0 ys k) else SB.num 0)
      = addSizeBreakdowns (getOr0 xs k) (getOr0 ys k)
    exact ifTruthy_id _
  · rw [if_neg hk]
    rw [mem_insertionDedup, List.mem_append, not_or] at hk
    rw [getOr0_none (lookupSB_eq_none_of_not_mem hk.1),
      getOr0_none (lookupSB_eq_none_of_not_mem hk.2)]
    rw [addSizeBreakdowns]

theorem compatFields_spec : ∀ (xs ys : List (String × SB)),
    compatFields xs ys = true →
    ∀ (k : String) (v w : SB), lookupSB xs k = some v → lookupSB ys k = some w →
      compatSB v w = true := by
  intro xs
  induction xs with
  | nil => intro ys _ k v w hv _; simp [lookupSB] at hv
  | cons p t ih =>
    intro ys hc k v w hv hw
    obtain ⟨k₁, v₁⟩ := p
    rw [compatFields, Bool.and_eq_true] at hc
    by_cases hk : k₁ = k
    · subst hk
      rw [show lookupSB ((k₁, v₁) :: t) k₁ = some v₁ from by
        simp [lookupSB, List.find?_cons]] at hv
      have hv1 := Option.some.inj hv
      subst hv1
      have h1 := hc.1
      split at h1
      · rename_i w' hw'
        rw [hw'] at hw
        rw [← Option.some.inj hw]
        exact h1
      · rename_i hw'
        rw [hw'] at hw
        cases hw
    · rw [show lookupSB ((k₁, v₁) :: t) k = lookupSB t k from by
        simp only [lookupSB, List.find?_cons]
        rw [show ((k₁, v₁).1 == k) = false by simpa using hk]] at hv
      exact ih ys hc.2 k v w hv hw

theorem addSB_num_num (x y : Nat) :
    addSizeBreakdowns (SB.num x) (SB.num y) = SB.num (x + y) := by
  rw [addSizeBreakdowns]

/-- The precondition under which the merge behaves algebraically: the two
operands are compatible, or one of them is the zero that `|| 0` produces
for a missing key. -/
def compatZ (a b : SB) : Prop :=
  compatSB a b = true ∨ a = SB.num 0 ∨ b = SB.num 0

theorem compatZ_num_obj {x : Nat} {o : List (String × SB)}
    (h : compatZ (SB.num x) (SB.obj o)) : x = 0 := by
  rcases h with h | h | h
  · simp [compatSB] at h
  · exact SB.num.inj h
  · cases h

theorem compatZ_obj_num {x : Nat} {o : List (String × SB)}
    (h : compatZ (SB.obj o) (SB.num x)) : x = 0 := by
  rcases h with h | h | h
  · simp [compatSB] at h
  · cases h
  · exact SB.num.inj h

theorem compatZ_obj_obj {xs ys : List (String × SB)}
    (h : compatZ (SB.obj xs) (SB.obj ys)) : compatSB (SB.obj xs) (SB.obj ys) = true := by
  rcases h with h | h | h
  · exact h
  · cases h
  · cases h

theorem compatZ_getOr0 {xs ys : List (String × SB)}
    (hc : compatSB (SB.obj xs) (SB.obj ys) = true) (k : String) :
    compatZ (getOr0 xs k) (getOr0 ys k) := by
  rw [compatSB] at hc
  cases hx : lookupSB xs k with
  | none => right; left; exact getOr0_none hx
  | some v =>
    cases hy : lookupSB ys k with
    | none => right; right; exact getOr0_none hy
    | some w =>
      rw [getOr0_some hx, getOr0_some hy]
      left
      exact compatFields_spec xs ys hc k v w hx hy

/-- Associativity of the merge under compatibility (fuel-indexed strong
induction on the combined size). -/
theorem addSB_assoc_aux : ∀ (n : Nat) (a b c : SB),
    sizeOf a + sizeOf b + sizeOf c ≤ n →
    compatZ a b → compatZ b c → compatZ a c →
    addSizeBreakdowns (addSizeBreakdowns a b) c
      = addSizeBreakdowns a (addSizeBreakdowns b c) := by
  intro n
  induction n with
  | zero =>
    intro a b c hs _ _ _
    have ha := sb_sizeOf_pos a
    have hb := sb_sizeOf_pos b
    have hc := sb_sizeOf_pos c
    omega
  | succ m ih =>
    intro a b c hs h1 h2 h3
    match a, b, c with
    | .num x, .num y, .num z =>
      rw [addSB_num_num, addSB_num_num, addSB_num_num, addSB_num_num, Nat.add_assoc]
    | .num x, .num y, .obj zs =>
      rw [compatZ_num_obj h3, compatZ_num_obj h2]
      simp [addSB_zero_left]
    | .num x, .obj ys, .num z =>
      rw [compatZ_num_obj h1, compatZ_obj_num h2]
      simp [addSB_zero_left, addSB_zero_right]
    | .obj xs, .num y, .num z =>
      rw [compatZ_obj_num h1, compatZ_obj_num h3]
      simp [addSB_zero_left, addSB_zero_right]
    | .num x, .obj ys, .obj zs =>
      rw [compatZ_num_obj h1]
      simp [addSB_zero_left]
    | .obj xs, .num y, .obj zs =>
      rw [compatZ_obj_num h1]
      simp [addSB_zero_left, addSB_zero_right]
    | .obj xs, .obj ys, .num z =>
      rw [compatZ_obj_num h3]
      simp [addSB_zero_right]
    | .obj xs, .obj ys, .obj zs =>
      have hab := compatZ_obj_obj h1
      have hbc := compatZ_obj_obj h2
      have hac := compatZ_obj_obj h3
      rw [addSizeBreakdowns_obj xs ys, addSizeBreakdowns_obj ys zs,
        addSizeBreakdowns_obj, addSizeBreakdowns_obj,
        sbKeys_mapFn, sbKeys_mapFn,
        insertionDedup_dedup_append, insertionDedup_append_dedup, List.append_assoc]
      congr 1
      apply List.map_congr_left
      intro k _
      rw [getOr0_addSB_obj, getOr0_addSB_obj]
      congr 1
      have la := sizeOf_getOr0_le xs k
      have lb := sizeOf_getOr0_le ys k
      have lc := sizeOf_getOr0_le zs k
      simp only [SB.obj.sizeOf_spec] at hs
      exact ih (getOr0 xs k) (getOr0 ys k) (getOr0 zs k) (by omega)
        (compatZ_getOr0 hab k) (compatZ_getOr0 hbc k) (compatZ_getOr0 hac k)

theorem lookupSB_isSome_of_mem {kvs : List (String × SB)} {k : String}
    (h : k ∈ sbKeys kvs) : ∃ v, lookupSB kvs k = some v := by
  induction kvs with
  | nil => simp [sbKeys] at h
  | cons p t ih =>
    obtain ⟨k₁, v₁⟩ := p
    by_cases hk : k₁ = k
    · subst hk
      exact ⟨v₁, by simp [lookupSB, List.find?_cons]⟩
    · have hmem : k ∈ sbKeys t := by
        simp only [sbKeys, List.map_cons, List.mem_cons] at h
        cases h with
        | inl he => exact absurd he.symm hk
        | inr hm => exact hm
      obtain ⟨v, hv⟩ := ih hmem
      refine ⟨v, ?_⟩
      rw [show lookupSB ((k₁, v₁) :: t) k = lookupSB t k from by
        simp only [lookupSB, List.find?_cons]
        rw [show ((k₁, v₁).1 == k) = false by simpa using hk]]
      exact hv

theorem equivKeys_head_some {xs ys : List (String × SB)} {k : String} {v w : SB}
    (hx : lookupSB xs k = some v) (hy : lookupSB ys k = some w) (t : List String) :
    equivKeys (k :: t) xs ys = (sbEquiv v w && equivKeys t xs ys) := by
  rw [equivKeys]
  congr 1
  split
  · rename_i v' w' hv' hw'
    rw [hv'] at hx
    rw [hw'] at hy
    rw [Option.some.inj hx, Option.some.inj hy]
  · rename_i hnone
    exact (hnone v w hx hy).elim

/-- `sbEquiv` is reflexive (fuel-indexed). -/
theorem sbEquiv_refl_aux : ∀ (n : Nat) (x : SB), sizeOf x ≤ n → sbEquiv x x = true := by
  intro n
  induction n with
  | zero =>
    intro x hs
    have := sb_sizeOf_pos x
    omega
  | succ m ih =>
    intro x hs
    match x with
    | .num v => rw [sbEquiv]; simp
    | .obj kvs =>
      rw [sbEquiv, Bool.and_eq_true]
      constructor
      · rw [List.all_eq_true]
        intro k hk
        exact List.elem_iff.mpr hk
      · have aux : ∀ kt : List String, (∀ k ∈ kt, k ∈ sbKeys kvs) →
            equivKeys kt kvs kvs = true := by
          intro kt
          induction kt with
          | nil => intro _; rw [equivKeys]
          | cons k t iht =>
            intro hsub
            obtain ⟨v, hv⟩ := lookupSB_isSome_of_mem (hsub k (List.mem_cons_self _ _))
            rw [equivKeys_head_some hv hv, Bool.and_eq_true]
            have hsize : sizeOf v ≤ m := by
              have h1 := sizeOf_lookupSB_lt hv
              simp only [SB.obj.sizeOf_spec] at hs
              omega
            exact ⟨ih v hsize, iht fun k' hk' => hsub k' (List.mem_cons_of_mem _ hk')⟩
        exact aux (sbKeys kvs) fun k hk => hk

/-- Commutativity of the merge up to object key order (fuel-indexed). -/
theorem addSB_comm_aux : ∀ (n : Nat) (a b : SB),
    sizeOf a + sizeOf b ≤ n → compatZ a b →
    sbEquiv (addSizeBreakdowns a b) (addSizeBreakdowns b a) = true := by
  intro n
  induction n with
  | zero =>
    intro a b hs _
    have := sb_sizeOf_pos a
    have := sb_sizeOf_pos b
    omega
  | succ m ih =>
    intro a b hs h1
    match a, b with
    | .num x, .num y =>
      rw [addSB_num_num, addSB_num_num, Nat.add_comm, sbEquiv]
      simp
    | .num x, .obj ys =>
      rw [compatZ_num_obj h1, addSB_zero_left, addSB_zero_right]
      exact sbEquiv_refl_aux (sizeOf (SB.obj ys)) _ le_rfl
    | .obj xs, .num y =>
      rw [compatZ_obj_num h1, addSB_zero_right, addSB_zero_left]
      exact sbEquiv_refl_aux (sizeOf (SB.obj xs)) _ le_rfl
    | .obj xs, .obj ys =>
      have hc := compatZ_obj_obj h1
      rw [addSizeBreakdowns_obj xs ys, addSizeBreakdowns_obj ys xs, sbEquiv,
        Bool.and_eq_true]
      constructor
      · rw [sbKeys_mapFn, sbKeys_mapFn, List.all_eq_true]
        intro k hk
        apply List.elem_iff.mpr
        rw [mem_insertionDedup] at hk ⊢
        rw [List.mem_append] at hk ⊢
        exact hk.symm
      · rw [sbKeys_mapFn]
        have aux : ∀ kt : List String,
            (∀ k ∈ kt, k ∈ insertionDedup (sbKeys xs ++ sbKeys ys)) →
            equivKeys kt
              ((insertionDedup (sbKeys xs ++ sbKeys ys)).map fun k =>
                (k, addSizeBreakdowns (getOr0 xs k) (getOr0 ys k)))
              ((insertionDedup (sbKeys ys ++ sbKeys xs)).map fun k =>
                (k, addSizeBreakdowns (getOr0 ys k) (getOr0 xs k))) = true := by
          intro kt
          induction kt with
          | nil => intro _; rw [equivKeys]
          | cons k t iht =>
            intro hsub
            have hk1 := hsub k (List.mem_cons_self _ _)
            have hk2 : k ∈ insertionDedup (sbKeys ys ++ sbKeys xs) := by
              rw [mem_insertionDedup, List.mem_append]
              rw [mem_insertionDedup, List.mem_append] at hk1
              exact hk1.symm
            have hP : lookupSB ((insertionDedup (sbKeys xs ++ sbKeys ys)).map fun k =>
                (k, addSizeBreakdowns (getOr0 xs k) (getOr0 ys k))) k
                = some (addSizeBreakdowns (getOr0 xs k) (getOr0 ys k)) := by
              rw [lookupSB_mapFn, if_pos hk1]
            have hQ : lookupSB ((insertionDedup (sbKeys ys ++ sbKeys xs)).map fun k =>
                (k, addSizeBreakdowns (getOr0 ys k) (getOr0 xs k))) k
                = some (addSizeBreakdowns (getOr0 ys k) (getOr0 xs k)) := by
              rw [lookupSB_mapFn, if_pos hk2]
            rw [equivKeys_head_some hP hQ, Bool.and_eq_true]
            refine ⟨?_, iht fun k' hk' => hsub k' (List.mem_cons_of_mem _ hk')⟩
            have la := sizeOf_getOr0_le xs k
            have lb := sizeOf_getOr0_le ys k
            simp only [SB.obj.sizeOf_spec] at hs
            exact ih (getOr0 xs k) (getOr0 ys k) (by omega) (compatZ_getOr0 hc k)
        exact aux _ fun k hk => hk

/-- Claim C3 as stated is false: over arbitrary size breakdowns the merge
is not associative.  With `a = 5`, `b = {}` (an empty object breakdown)
and `c = 3`, merging `a` with `b` takes the mismatched-kinds branch and
keeps the truthy `5`, so `(a+b)+c = 8`, while `b+c` keeps `{}` and then
`a+(b+c) = 5`. -/
theorem claim_C3_counterexample :
    addSizeBreakdowns (addSizeBreakdowns (SB.num 5) (SB.obj [])) (SB.num 3)
      ≠ addSizeBreakdowns (SB.num 5) (addSizeBreakdowns (SB.obj []) (SB.num 3)) := by
  simp [addSizeBreakdowns, truthySB]

/-- Claim C3 (amended): restricted to compatible size breakdowns — never a
number leaf against an object at a shared path, which is exactly the
situation for breakdowns computed from a common shape, with a missing key
reading as 0 — the merge is associative (as a strict equality, key order
included) and commutative up to object key order: merging `a` with `b`
and `b` with `a` yields the same key sets with pointwise-equal values at
every depth. -/
theorem claim_C3_merge_assoc_comm (a b c : SB)
    (hab : compatZ a b) (hbc : compatZ b c) (hac : compatZ a c) :
    addSizeBreakdowns (addSizeBreakdowns a b) c
        = addSizeBreakdowns a (addSizeBreakdowns b c) ∧
    sbEquiv (addSizeBreakdowns a b) (addSizeBreakdowns b a) = true :=
  ⟨addSB_assoc_aux (sizeOf a + sizeOf b + sizeOf c) a b c le_rfl hab hbc hac,
   addSB_comm_aux (sizeOf a + sizeOf b) a b le_rfl hab⟩

theorem claim_C3_merge_assoc_comm_witness :
    addSizeBreakdowns
        (addSizeBreakdowns (SB.obj [("x", SB.num 1)])
          (SB.obj [("x", SB.num 2), ("y", SB.num 3)]))
        (SB.obj [])
      = addSizeBreakdowns (SB.obj [("x", SB.num 1)])
          (addSizeBreakdowns (SB.obj [("x", SB.num 2), ("y", SB.num 3)]) (SB.obj [])) ∧
    sbEquiv
        (addSizeBreakdowns (SB.obj [("x", SB.num 1)])
          (SB.obj [("x", SB.num 2), ("y", SB.num 3)]))
        (addSizeBreakdowns (SB.obj [("x", SB.num 2), ("y", SB.num 3)])
          (SB.obj [("x", SB.num 1)])) = true :=
  claim_C3_merge_assoc_comm
    (SB.obj [("x", SB.num 1)]) (SB.obj [("x", SB.num 2), ("y", SB.num 3)]) (SB.obj [])
    (Or.inl (by simp [compatSB, compatFields, lookupSB, List.find?]))
    (Or.inl (by simp [compatSB, compatFields, lookupSB, List.find?]))
    (Or.inl (by simp [compatSB, compatFields, lookupSB, List.find?]))

/-! ## Ingestion: error model, local file strategy (src/unnamed/part_003),
HTTP strategy (src/src/strategies/HttpJsonStrategy.ts) and the resolver
(src/src/context/JsonIngestionContext.ts). -/

/-- The closed set of error kinds of `JsonIngestionError`. -/
inductive ErrorKind where
  | file_not_found
  | invalid_json
  | network_error
  | invalid_url
  | unsupported_content_type
  | rate_limit_exceeded
  | validation_error
  | authentication_required
  | server_error
  | content_too_large
deriving Repr, DecidableEq

/-- An ingestion error: the kind, the human-readable message and the
machine-readable detail fields the claims refer to (each `none` when the
corresponding branch does not set it). -/
structure ErrInfo where
  kind : ErrorKind
  message : String
  status : Option Nat
  statusText : Option String
  url : Option String
  retryAfter : Option String
  responsePreview : Option String
  sizeActual : Option Nat
  sizeMax : Option Nat
deriving Repr, DecidableEq

/-- An error carrying only a kind and a message. -/
def baseErr (k : ErrorKind) (msg : String) : ErrInfo :=
  ⟨k, msg, none, none, none, none, none, none, none⟩

/-- `JsonIngestionResult`: `{success:true, content}` or
`{success:false, error}`. -/
inductive IngestionResult where
  | ok (content : String)
  | err (e : ErrInfo)
deriving Repr, DecidableEq

/-- The error kind of a result, `none` on success. -/
def IngestionResult.errKind : IngestionResult → Option ErrorKind
  | .ok _ => none
  | .err e => some e.kind

/-- The fixed 50 MB content cap (`maxFileSize` / `maxResponseSize`). -/
def maxContentBytes : Nat := 50 * 1024 * 1024

/-- `Math.round(bytes / 1024 / 1024)`: round half up to whole megabytes. -/
def mbRound (n : Nat) : Nat :=
  (2 * n + 1048576) / 2097152

/-- `validateJsonContent` of the abstract strategy class: `JSON.parse`
succeeds (the `jsonOk` oracle parameter) and the raw content is returned,
or `invalid_json`. -/
def validateJsonContent (jsonOk : String → Bool) (content : String) : IngestionResult :=
  if jsonOk content then .ok content
  else .err (baseErr .invalid_json "Invalid JSON format in content")

/-- The file-system facts `LocalFileStrategy.ingest` consults: `resolve`
(path resolution), `fs.stat` (`none` when the stat throws, otherwise the
reported size) and `fs.readFile` (`none` when the read throws). -/
structure FileSystem where
  resolvePath : String → String
  statSize : String → Option Nat
  readFile : String → Option String

/-- The `content_too_large` error the local strategy builds, carrying the
actual and maximum size. -/
def localTooLargeErr (size : Nat) (resolvedPath : String) : ErrInfo :=
  ⟨.content_too_large,
    "File too large (" ++ toString (mbRound size) ++
      "MB). This tool is optimized for JSON files under " ++
      toString (mbRound maxContentBytes) ++ "MB.",
    none, none, some resolvedPath, none, none, some size, some maxContentBytes⟩

/-- Embedding of `LocalFileStrategy.ingest` (src/unnamed/part_003 lines
17-51): resolve the path, stat it (`file_not_found` on failure), refuse a
stat size above the 50 MB cap with `content_too_large` before any read,
read the file (`file_not_found` on failure), then validate as JSON. -/
def localFileIngest (fs : FileSystem) (jsonOk : String → Bool)
    (source : String) : IngestionResult :=
  let resolvedPath := fs.resolvePath source
  match fs.statSize resolvedPath with
  | none => .err (baseErr .file_not_found ("File not found: " ++ resolvedPath))
  | some size =>
    if size > maxContentBytes then
      .err (localTooLargeErr size resolvedPath)
    else
      match fs.readFile resolvedPath with
      | none => .err (baseErr .file_not_found ("Failed to read file: " ++ resolvedPath))
      | some content => validateJsonContent jsonOk content

/-- Claim C4: local ingestion of a file whose stat size exceeds the 50 MB
cap returns `content_too_large` carrying both the actual and the maximum
size; the outcome does not depend on the file's contents or on the JSON
validator (the file is never read), and `invalid_json` is never returned
for such a file. -/
theorem claim_C4_local_size_cap (resolvePath : String → String)
    (stat : String → Option Nat) (rd₁ rd₂ : String → Option String)
    (jsonOk₁ jsonOk₂ : String → Bool) (source : String) (n : Nat)
    (hstat : stat (resolvePath source) = some n) (hbig : n > maxContentBytes) :
    localFileIngest ⟨resolvePath, stat, rd₁⟩ jsonOk₁ source
        = .err (localTooLargeErr n (resolvePath source)) ∧
    localFileIngest ⟨resolvePath, stat, rd₁⟩ jsonOk₁ source
        = localFileIngest ⟨resolvePath, stat, rd₂⟩ jsonOk₂ source ∧
    (localFileIngest ⟨resolvePath, stat, rd₁⟩ jsonOk₁ source).errKind
        ≠ some ErrorKind.invalid_json := by
  have he : ∀ (rd : String → Option String) (jsonOk : String → Bool),
      localFileIngest ⟨resolvePath, stat, rd⟩ jsonOk source
        = .err (localTooLargeErr n (resolvePath source)) := by
    intro rd jsonOk
    rw [localFileIngest]
    simp only [hstat]
    rw [if_pos hbig]
  refine ⟨he rd₁ jsonOk₁, (he rd₁ jsonOk₁).trans (he rd₂ jsonOk₂).symm, ?_⟩
  rw [he rd₁ jsonOk₁]
  simp [IngestionResult.errKind, localTooLargeErr]

theorem claim_C4_local_size_cap_witness :
    localFileIngest ⟨fun s => s, fun _ => some 52428801, fun _ => some "x"⟩
        (fun _ => false) "big.json"
      = .err (localTooLargeErr 52428801 "big.json") ∧
    localFileIngest ⟨fun s => s, fun _ => some 52428801, fun _ => some "x"⟩
        (fun _ => false) "big.json"
      = localFileIngest ⟨fun s => s, fun _ => some 52428801, fun _ => none⟩
        (fun _ => true) "big.json" ∧
    (localFileIngest ⟨fun s => s, fun _ => some 52428801, fun _ => some "x"⟩
        (fun _ => false) "big.json").errKind ≠ some ErrorKind.invalid_json :=
  claim_C4_local_size_cap (fun s => s) (fun _ => some 52428801) (fun _ => some "x")
    (fun _ => none) (fun _ => false) (fun _ => true) "big.json" 52428801
    rfl (by decide)

/-- The fixed request timeout (`requestTimeout = 10000`). -/
def requestTimeoutMs : Nat := 10000

/-- `parseInt(s, 10)`: skip leading whitespace, read an optional sign and
then a maximal digit prefix; `none` models `NaN` (no digits). -/
def digitsVal (cs : List Char) : Option Nat :=
  let ds := cs.takeWhile Char.isDigit
  if ds.isEmpty then none
  else some (ds.foldl (fun acc c => 10 * acc + (c.toNat - 48)) 0)

def parseIntJS (s : String) : Option Int :=
  match s.data.dropWhile Char.isWhitespace with
  | '-' :: rest => (digitsVal rest).map fun n => -(n : Int)
  | '+' :: rest => (digitsVal rest).map fun n => (n : Int)
  | cs => (digitsVal cs).map fun n => (n : Int)

/-- The facts of a fetched `Response` the strategy consults: the status
line, `headers.get` (case-insensitivity is the environment's concern) and
the outcome of `response.text()` (`none` when the read throws). -/
structure HttpResponse where
  status : Nat
  statusText : String
  headerGet : String → Option String
  textResult : Option String

/-- `Response.ok`: status in the inclusive range 200-299. -/
def responseOk (r : HttpResponse) : Bool :=
  200 ≤ r.status && r.status ≤ 299

/-- Outcome of the guarded `fetch` call: aborted by the timeout
(`AbortError`), failed in transport, or a response. -/
inductive FetchOutcome where
  | aborted
  | failed (msg : String)
  | responded (r : HttpResponse)

/-- The environment of one `HttpJsonStrategy.ingest` run: what
`new URL(source).protocol` yields (`none` when the constructor throws)
and what the fetch produces. -/
structure HttpEnv where
  urlProtocol : String → Option String
  fetchOutcome : FetchOutcome

/-- The 401/403 body preview: up to 200 characters of the body, read
failures tolerated silently as an empty preview, and
`responsePreview || undefined` dropping the empty string. -/
def previewOf (r : HttpResponse) : Option String :=
  let responsePreview :=
    match r.textResult with
    | some t => t.take 200
    | none => ""
  if responsePreview = "" then none else some responsePreview

/-- `response.headers.get('Retry-After') || undefined`. -/
def retryAfterOf (r : HttpResponse) : Option String :=
  match r.headerGet "Retry-After" with
  | some v => if v = "" then none else some v
  | none => none

/-- The 401/403 message: 401 asks for credentials, 403 warns about
forbidden or region/IP-restricted access. -/
def authMsg (status : Nat) : String :=
  if status = 401 then
    "Authentication required: This endpoint needs valid credentials. Verify this is a public API endpoint."
  else if status = 403 then
    "Access forbidden: This endpoint may require authentication, be restricted by region, or have IP restrictions. Verify this is a publicly accessible endpoint."
  else "This endpoint requires authentication or access is denied."

def authErr (source : String) (r : HttpResponse) : ErrInfo :=
  ⟨.authentication_required, authMsg r.status, some r.status, some r.statusText,
    some source, none, previewOf r, none, none⟩

def rateErr (source : String) (r : HttpResponse) : ErrInfo :=
  ⟨.rate_limit_exceeded,
    "API rate limit exceeded. Please wait before making more requests to this endpoint.",
    some r.status, some r.statusText, some source, retryAfterOf r, none, none, none⟩

def serverErr (source : String) (r : HttpResponse) : ErrInfo :=
  ⟨.server_error,
    "Server error (HTTP " ++ toString r.status ++
      "): This is likely a temporary issue with the endpoint. Try again later.",
    some r.status, some r.statusText, some source, none, none, none, none⟩

def clientErr (source : String) (r : HttpResponse) : ErrInfo :=
  ⟨.network_error,
    "HTTP " ++ toString r.status ++ ": " ++ r.statusText ++ ". " ++
      (if r.status = 404 then "Endpoint not found - verify the URL is correct."
       else "Client error occurred."),
    some r.status, some r.statusText, some source, none, none, none, none⟩

def headerTooLargeErr (size : Int) (source : String) : ErrInfo :=
  ⟨.content_too_large,
    "Response too large (" ++ toString (mbRound size.toNat) ++
      "MB). This tool is optimized for JSON files under " ++
      toString (mbRound maxContentBytes) ++ "MB.",
    none, none, some source, none, none, some size.toNat, some maxContentBytes⟩

def actualTooLargeErr (size : Nat) (source : String) : ErrInfo :=
  ⟨.content_too_large,
    "Response too large (" ++ toString (mbRound size) ++
      "MB after reading). This tool is optimized for JSON files under " ++
      toString (mbRound maxContentBytes) ++ "MB.",
    none, none, some source, none, none, some size, some maxContentBytes⟩

def readFailErr (source : String) : ErrInfo :=
  ⟨.network_error,
    "Failed to read response content. This may be due to network issues or the response being too large.",
    none, none, some source, none, none, none, none⟩

def strToLower (s : String) : String :=
  String.mk (s.data.map Char.toLower)

/-- Naive substring search over character lists (`String.includes`). -/
def infixSearch (sub : List Char) : List Char → Bool
  | [] => sub.isEmpty
  | c :: rest => sub.isPrefixOf (c :: rest) || infixSearch sub rest

def containsSub (s sub : String) : Bool :=
  infixSearch sub.data s.data

/-- The content sniffing of the `invalid_json` branch: HTML, XML and
empty-body hints from the first 200 characters. -/
def invalidJsonHint (contentPreview : String) : String :=
  if containsSub (strToLower contentPreview) "<!doctype html"
      || containsSub (strToLower contentPreview) "<html" then
    " The response appears to be HTML - verify the URL points to a JSON endpoint, not a web page."
  else if containsSub (strToLower contentPreview) "<?xml" then
    " The response appears to be XML - this tool only supports JSON format."
  else if contentPreview.trim = "" then
    " The response is empty - the endpoint may not be returning data."
  else " Verify the endpoint returns valid JSON format."

def invalidJsonHttpErr (source : String) (r : HttpResponse) (content : String) : ErrInfo :=
  ⟨.invalid_json,
    "Response content is not valid JSON. Content-Type: " ++
      ((r.headerGet "content-type").getD "unknown") ++ "." ++
      invalidJsonHint (content.take 200),
    none, none, some source, none, some (content.take 200), none, none⟩

/-- Steps 5-7 of `HttpJsonStrategy.ingest` after the headers have been
checked: read the body (`network_error` on a throw), reject a decoded
byte length above the cap with the measured size, then validate as JSON
with sniffed hints on failure. -/
def handleBody (jsonOk : String → Bool) (source : String) (r : HttpResponse) :
    IngestionResult :=
  match r.textResult with
  | none => .err (readFailErr source)
  | some content =>
    let actualSize := utf8Len content
    if actualSize > maxContentBytes then
      .err (actualTooLargeErr actualSize source)
    else
      if jsonOk content then .ok content
      else .err (invalidJsonHttpErr source r content)

/-- The `Content-Length` pre-check of a 2xx response: when the header is
present, non-empty (`if (contentLength)`) and parses above the cap,
refuse with `content_too_large` before reading the body; any other
outcome (missing header, empty string, `NaN`, value within the cap)
falls through to the body. -/
def handleOkResponse (jsonOk : String → Bool) (source : String) (r : HttpResponse) :
    IngestionResult :=
  match r.headerGet "content-length" with
  | some cl =>
    if cl = "" then handleBody jsonOk source r
    else
      match parseIntJS cl with
      | some size =>
        if size > (maxContentBytes : Int) then .err (headerTooLargeErr size source)
        else handleBody jsonOk source r
      | none => handleBody jsonOk source r
  | none => handleBody jsonOk source r

/-- Embedding of `HttpJsonStrategy.ingest`
(src/src/strategies/HttpJsonStrategy.ts): URL validation, the guarded
fetch, the non-2xx classification in source order (401/403, then 429,
then 500+, then other client errors with a 404 hint), the
`Content-Length` pre-check and the body handling. -/
def httpJsonIngest (env : HttpEnv) (jsonOk : String → Bool) (source : String) :
    IngestionResult :=
  match env.urlProtocol source with
  | none => .err (baseErr .invalid_url ("Invalid URL format: " ++ source))
  | some protocol =>
    if protocol ≠ "http:" ∧ protocol ≠ "https:" then
      .err (baseErr .invalid_url "Only HTTP and HTTPS URLs are supported")
    else
      match env.fetchOutcome with
      | .aborted =>
        .err (baseErr .network_error
          ("Request timeout after " ++ toString requestTimeoutMs ++ "ms"))
      | .failed msg =>
        .err (baseErr .network_error ("Failed to fetch from " ++ source ++ ": " ++ msg))
      | .responded r =>
        if !(responseOk r) then
          if r.status = 401 ∨ r.status = 403 then .err (authErr source r)
          else if r.status = 429 then .err (rateErr source r)
          else if 500 ≤ r.status then .err (serverErr source r)
          else .err (clientErr source r)
        else handleOkResponse jsonOk source r

/-- Claim C5: for a 2xx response, (a) a `Content-Length` header parsing
above the 50 MB cap yields `content_too_large` before the body is
consulted; (b) whenever the decoded body exceeds the cap the result is
`content_too_large`; (c) without a `Content-Length` header the error
carries the measured body size. -/
theorem claim_C5_http_size_cap :
    (∀ (env : HttpEnv) (jsonOk : String → Bool) (source : String) (r : HttpResponse)
        (cl : String) (sz : Int),
      env.urlProtocol source = some "https:" → env.fetchOutcome = .responded r →
      responseOk r = true → r.headerGet "content-length" = some cl → cl ≠ "" →
      parseIntJS cl = some sz → sz > (maxContentBytes : Int) →
      httpJsonIngest env jsonOk source = .err (headerTooLargeErr sz source)) ∧
    (∀ (env : HttpEnv) (jsonOk : String → Bool) (source : String) (r : HttpResponse)
        (content : String),
      env.urlProtocol source = some "https:" → env.fetchOutcome = .responded r →
      responseOk r = true → r.textResult = some content →
      utf8Len content > maxContentBytes →
      (httpJsonIngest env jsonOk source).errKind = some ErrorKind.content_too_large) ∧
    (∀ (env : HttpEnv) (jsonOk : String → Bool) (source : String) (r : HttpResponse)
        (content : String),
      env.urlProtocol source = some "https:" → env.fetchOutcome = .responded r →
      responseOk r = true → r.headerGet "content-length" = none →
      r.textResult = some content → utf8Len content > maxContentBytes →
      httpJsonIngest env jsonOk source = .err (actualTooLargeErr (utf8Len content) source)) := by
  refine ⟨?parta, ?partb, ?partc⟩
  case parta =>
    intro env jsonOk source r cl sz hproto hfetch hok hcl hne hparse hbig
    rw [httpJsonIngest, hproto]
    simp only [hfetch, hok, handleOkResponse, hcl, hparse, Bool.not_true, if_neg hne]
    rw [if_neg (by simp), if_pos hbig]
    simp
  case partb =>
    intro env jsonOk source r content hproto hfetch hok hbody hbig
    have hbodykind : (handleBody jsonOk source r).errKind
        = some ErrorKind.content_too_large := by
      rw [handleBody]
      simp only [hbody]
      rw [if_pos hbig]
      simp [IngestionResult.errKind, actualTooLargeErr]
    rw [httpJsonIngest, hproto]
    simp only [hfetch, hok, Bool.not_true]
    rw [if_neg (by simp), if_neg (by simp)]
    rw [handleOkResponse]
    split
    · split
      · exact hbodykind
      · split
        · split
          · simp [IngestionResult.errKind, headerTooLargeErr]
          · exact hbodykind
        · exact hbodykind
    · exact hbodykind
  case partc =>
    intro env jsonOk source r content hproto hfetch hok hcl hbody hbig
    rw [httpJsonIngest, hproto]
    simp only [hfetch, hok, handleOkResponse, hcl, Bool.not_true]
    rw [if_neg (by simp), if_neg (by simp)]
    rw [handleBody]
    simp only [hbody]
    rw [if_pos hbig]

theorem utf8Len_replicate (n : Nat) (c : Char) :
    utf8Len (String.mk (List.replicate n c)) = n * c.utf8Size := by
  induction n with
  | zero => simp [utf8Len]
  | succ m ih =>
    simp only [utf8Len, List.replicate_succ, List.map_cons, List.sum_cons] at ih ⊢
    rw [ih, Nat.succ_mul]
    omega

/-- A body one byte above the 50 MB cap. -/
def oversizedBody : String :=
  String.mk (List.replicate (maxContentBytes + 1) 'a')

theorem utf8Len_oversizedBody : utf8Len oversizedBody = 52428801 := by
  rw [oversizedBody, utf8Len_replicate]
  decide

theorem claim_C5_http_size_cap_witness :
    httpJsonIngest
        ⟨fun _ => some "https:", .responded ⟨200, "OK",
          (fun h => if h = "content-length" then some "99999999" else none), some "x"⟩⟩
        (fun _ => true) "https://big.example/data.json"
      = .err (headerTooLargeErr 99999999 "https://big.example/data.json") ∧
    (httpJsonIngest
        ⟨fun _ => some "https:", .responded ⟨200, "OK", (fun _ => none), some oversizedBody⟩⟩
        (fun _ => true) "https://big.example/data.json").errKind
      = some ErrorKind.content_too_large ∧
    httpJsonIngest
        ⟨fun _ => some "https:", .responded ⟨200, "OK", (fun _ => none), some oversizedBody⟩⟩
        (fun _ => true) "https://big.example/data.json"
      = .err (actualTooLargeErr 52428801 "https://big.example/data.json") := by
  refine ⟨?w1, ?w2, ?w3⟩
  case w1 =>
    exact claim_C5_http_size_cap.1 _ _ _ _ "99999999" 99999999
      rfl rfl (by decide) (by decide) (by decide) (by decide) (by decide)
  case w2 =>
    exact claim_C5_http_size_cap.2.1 _ _ _ _ oversizedBody
      rfl rfl (by decide) rfl (by rw [utf8Len_oversizedBody]; decide)
  case w3 =>
    have h := claim_C5_http_size_cap.2.2
      ⟨fun _ => some "https:", .responded ⟨200, "OK", (fun _ => none), some oversizedBody⟩⟩
      (fun _ => true) "https://big.example/data.json"
      ⟨200, "OK", (fun _ => none), some oversizedBody⟩ oversizedBody
      rfl rfl (by decide) rfl rfl (by rw [utf8Len_oversizedBody]; decide)
    rwa [utf8Len_oversizedBody] at h

/-- Claim C8: non-2xx responses are classified in source precedence:
401 and 403 yield `authentication_required` with status-specific messages
and the tolerant body preview; 429 yields `rate_limit_exceeded` carrying
any `Retry-After` header; any status of 500 or above yields
`server_error`; every remaining non-2xx status yields `network_error`,
with the URL-verification hint exactly when the status is 404. -/
theorem claim_C8_http_error_classification :
    (∀ (env : HttpEnv) (jsonOk : String → Bool) (source : String) (r : HttpResponse),
      env.urlProtocol source = some "https:" → env.fetchOutcome = .responded r →
      r.status = 401 →
      httpJsonIngest env jsonOk source = .err (authErr source r) ∧
      (authErr source r).message
        = "Authentication required: This endpoint needs valid credentials. Verify this is a public API endpoint." ∧
      (authErr source r).responsePreview = previewOf r) ∧
    (∀ (env : HttpEnv) (jsonOk : String → Bool) (source : String) (r : HttpResponse),
      env.urlProtocol source = some "https:" → env.fetchOutcome = .responded r →
      r.status = 403 →
      httpJsonIngest env jsonOk source = .err (authErr source r) ∧
      (authErr source r).message
        = "Access forbidden: This endpoint may require authentication, be restricted by region, or have IP restrictions. Verify this is a publicly accessible endpoint.") ∧
    (∀ (env : HttpEnv) (jsonOk : String → Bool) (source : String) (r : HttpResponse),
      env.urlProtocol source = some "https:" → env.fetchOutcome = .responded r →
      r.status = 429 →
      httpJsonIngest env jsonOk source = .err (rateErr source r) ∧
      (rateErr source r).retryAfter = retryAfterOf r) ∧
    (∀ (env : HttpEnv) (jsonOk : String → Bool) (source : String) (r : HttpResponse),
      env.urlProtocol source = some "https:" → env.fetchOutcome = .responded r →
      500 ≤ r.status →
      httpJsonIngest env jsonOk source = .err (serverErr source r)) ∧
    (∀ (env : HttpEnv) (jsonOk : String → Bool) (source : String) (r : HttpResponse),
      env.urlProtocol source = some "https:" → env.fetchOutcome = .responded r →
      responseOk r = false → r.status ≠ 401 → r.status ≠ 403 → r.status ≠ 429 →
      r.status < 500 →
      httpJsonIngest env jsonOk source = .err (clientErr source r) ∧
      (r.status = 404 → (clientErr source r).message
        = "HTTP " ++ toString r.status ++ ": " ++ r.statusText ++ ". " ++
          "Endpoint not found - verify the URL is correct.")) := by
  refine ⟨?p401, ?p403, ?p429, ?p500, ?pother⟩
  case p401 =>
    intro env jsonOk source r hproto hfetch hs
    have hko : responseOk r = false := by rw [responseOk, hs]; decide
    refine ⟨?_, ?_, rfl⟩
    · rw [httpJsonIngest, hproto]
      simp only [hfetch, hko]
      rw [if_neg (by simp), if_pos (by decide), if_pos (Or.inl hs)]
    · simp [authErr, authMsg, hs]
  case p403 =>
    intro env jsonOk source r hproto hfetch hs
    have hko : responseOk r = false := by rw [responseOk, hs]; decide
    refine ⟨?_, ?_⟩
    · rw [httpJsonIngest, hproto]
      simp only [hfetch, hko]
      rw [if_neg (by simp), if_pos (by decide), if_pos (Or.inr hs)]
    · simp [authErr, authMsg, hs]
  case p429 =>
    intro env jsonOk source r hproto hfetch hs
    have hko : responseOk r = false := by rw [responseOk, hs]; decide
    refine ⟨?_, rfl⟩
    rw [httpJsonIngest, hproto]
    simp only [hfetch, hko]
    rw [if_neg (by simp), if_pos (by decide),
      if_neg (by rw [hs]; decide), if_pos hs]
  case p500 =>
    intro env jsonOk source r hproto hfetch hs
    have hko : responseOk r = false := by
      rw [responseOk]
      simp only [Bool.and_eq_false_eq_eq_false_or_eq_false]
      right
      simp only [decide_eq_false_iff_not]
      omega
    rw [httpJsonIngest, hproto]
    simp only [hfetch, hko]
    rw [if_neg (by simp), if_pos (by decide),
      if_neg (by omega), if_neg (by omega), if_pos hs]
  case pother =>
    intro env jsonOk source r hproto hfetch hko h401 h403 h429 h500
    refine ⟨?_, ?_⟩
    · rw [httpJsonIngest, hproto]
      simp only [hfetch, hko]
      rw [if_neg (by simp), if_pos (by decide),
        if_neg (by simp [h401, h403]), if_neg h429, if_neg (by omega)]
    · intro h404
      simp [clientErr, h404]

theorem claim_C8_http_error_classification_witness :
    (httpJsonIngest ⟨fun _ => some "https:",
        .responded ⟨401, "Unauthorized", (fun _ => none), some "denied"⟩⟩
        (fun _ => true) "https://api.example/x"
      = .err (authErr "https://api.example/x"
          ⟨401, "Unauthorized", (fun _ => none), some "denied"⟩)) ∧
    (httpJsonIngest ⟨fun _ => some "https:",
        .responded ⟨403, "Forbidden", (fun _ => none), none⟩⟩
        (fun _ => true) "https://api.example/x"
      = .err (authErr "https://api.example/x"
          ⟨403, "Forbidden", (fun _ => none), none⟩)) ∧
    (httpJsonIngest ⟨fun _ => some "https:",
        .responded ⟨429, "Too Many Requests",
          (fun h => if h = "Retry-After" then some "60" else none), none⟩⟩
        (fun _ => true) "https://api.example/x"
      = .err (rateErr "https://api.example/x"
          ⟨429, "Too Many Requests",
            (fun h => if h = "Retry-After" then some "60" else none), none⟩)) ∧
    (httpJsonIngest ⟨fun _ => some "https:",
        .responded ⟨500, "Internal Server Error", (fun _ => none), none⟩⟩
        (fun _ => true) "https://api.example/x"
      = .err (serverErr "https://api.example/x"
          ⟨500, "Internal Server Error", (fun _ => none), none⟩)) ∧
    (httpJsonIngest ⟨fun _ => some "https:",
        .responded ⟨404, "Not Found", (fun _ => none), none⟩⟩
        (fun _ => true) "https://api.example/x"
      = .err (clientErr "https://api.example/x"
          ⟨404, "Not Found", (fun _ => none), none⟩)) := by
  refine ⟨?w1, ?w2, ?w3, ?w4, ?w5⟩
  case w1 =>
    exact (claim_C8_http_error_classification.1 _ _ _ _ rfl rfl rfl).1
  case w2 =>
    exact (claim_C8_http_error_classification.2.1 _ _ _ _ rfl rfl rfl).1
  case w3 =>
    exact (claim_C8_http_error_classification.2.2.1 _ _ _ _ rfl rfl rfl).1
  case w4 =>
    exact claim_C8_http_error_classification.2.2.2.1 _ _ _ _ rfl rfl (by decide)
  case w5 =>
    exact (claim_C8_http_error_classification.2.2.2.2 _ _ _ _ rfl rfl
      (by decide) (by decide) (by decide) (by decide) (by decide)).1

/-- `LocalFileStrategy.canHandle`: any string that does not start with
`http://` or `https://`. -/
def localCanHandle (source : String) : Bool :=
  !(source.startsWith "http://") && !(source.startsWith "https://")

/-- `HttpJsonStrategy.canHandle`: any string that starts with `http://`
or `https://`. -/
def httpCanHandle (source : String) : Bool :=
  source.startsWith "http://" || source.startsWith "https://"

/-- The two strategies registered by the `JsonIngestionContext`
constructor, in registration order. -/
inductive StrategyTag where
  | localFile
  | httpJson
deriving Repr, DecidableEq

def strategyCanHandle : StrategyTag → String → Bool
  | .localFile, s => localCanHandle s
  | .httpJson, s => httpCanHandle s

def registeredStrategies : List StrategyTag :=
  [.localFile, .httpJson]

/-- `findStrategy`: the first registered strategy whose predicate accepts
the source. -/
def findStrategy (source : String) : Option StrategyTag :=
  registeredStrategies.find? fun t => strategyCanHandle t source

/-- The `validation_error` of the no-strategy branch. -/
def noStrategyErr (source : String) : ErrInfo :=
  baseErr .validation_error ("No strategy found to handle source: " ++ source)

/-- Embedding of `JsonIngestionContext.ingest`: resolve the strategy,
return the no-strategy `validation_error` when none matches, otherwise
delegate to the matched strategy. -/
def contextIngest (fs : FileSystem) (env : HttpEnv) (jsonOk : String → Bool)
    (source : String) : IngestionResult :=
  match findStrategy source with
  | none => .err (noStrategyErr source)
  | some .localFile => localFileIngest fs jsonOk source
  | some .httpJson => httpJsonIngest env jsonOk source

/-- The local strategy never produces a `validation_error` (its branches
are `file_not_found`, `content_too_large`, `invalid_json` or success). -/
theorem localFileIngest_no_validation_error (fs : FileSystem) (jsonOk : String → Bool)
    (source : String) :
    (localFileIngest fs jsonOk source).errKind ≠ some ErrorKind.validation_error := by
  rw [localFileIngest]
  split
  · simp [IngestionResult.errKind, baseErr]
  · split
    · simp [IngestionResult.errKind, localTooLargeErr]
    · split
      · simp [IngestionResult.errKind, baseErr]
      · rw [validateJsonContent]
        split
        · simp [IngestionResult.errKind]
        · simp [IngestionResult.errKind, baseErr]

theorem handleBody_no_validation_error (jsonOk : String → Bool) (source : String)
    (r : HttpResponse) :
    (handleBody jsonOk source r).errKind ≠ some ErrorKind.validation_error := by
  rw [handleBody]
  cases hb : r.textResult with
  | none => simp [IngestionResult.errKind, readFailErr]
  | some content =>
    by_cases hbig : utf8Len content > maxContentBytes
    · simp [hbig, IngestionResult.errKind, actualTooLargeErr]
    · by_cases hj : jsonOk content
      · simp [hbig, hj, IngestionResult.errKind]
      · simp [hbig, hj, IngestionResult.errKind, invalidJsonHttpErr]

theorem handleOkResponse_no_validation_error (jsonOk : String → Bool) (source : String)
    (r : HttpResponse) :
    (handleOkResponse jsonOk source r).errKind ≠ some ErrorKind.validation_error := by
  rw [handleOkResponse]
  cases hcl : r.headerGet "content-length" with
  | none => simpa using handleBody_no_validation_error jsonOk source r
  | some cl =>
    by_cases hne : cl = ""
    · simpa [hne] using handleBody_no_validation_error jsonOk source r
    · cases hparse : parseIntJS cl with
      | none => simpa [hne, hparse] using handleBody_no_validation_error jsonOk source r
      | some sz =>
        by_cases hbig : sz > (maxContentBytes : Int)
        · simp [hne, hparse, hbig, IngestionResult.errKind, headerTooLargeErr]
        · simpa [hne, hparse, hbig] using handleBody_no_validation_error jsonOk source r

/-- The HTTP strategy never produces a `validation_error`. -/
theorem httpJsonIngest_no_validation_error (env : HttpEnv) (jsonOk : String → Bool)
    (source : String) :
    (httpJsonIngest env jsonOk source).errKind ≠ some ErrorKind.validation_error := by
  rw [httpJsonIngest]
  cases hu : env.urlProtocol source with
  | none => simp [IngestionResult.errKind, baseErr]
  | some protocol =>
    cases hf : env.fetchOutcome with
    | aborted =>
      by_cases hp : protocol ≠ "http:" ∧ protocol ≠ "https:" <;>
        simp [hp, IngestionResult.errKind, baseErr]
    | failed msg =>
      by_cases hp : protocol ≠ "http:" ∧ protocol ≠ "https:" <;>
        simp [hp, IngestionResult.errKind, baseErr]
    | responded r =>
      by_cases hp : protocol ≠ "http:" ∧ protocol ≠ "https:"
      · simp [hp, IngestionResult.errKind, baseErr]
      · by_cases hok : responseOk r
        · simpa [hp, hok] using handleOkResponse_no_validation_error jsonOk source r
        · by_cases h401 : r.status = 401 ∨ r.status = 403
          · simp [hp, hok, h401, IngestionResult.errKind, authErr]
          · by_cases h429 : r.status = 429
            · simp [hp, hok, h401, h429, IngestionResult.errKind, rateErr]
            · by_cases h500 : 500 ≤ r.status
              · simp [hp, hok, h401, h429, h500, IngestionResult.errKind, serverErr]
              · simp [hp, hok, h401, h429, h500, IngestionResult.errKind, clientErr]

/-- Claim C10: the two predicates are exact complements — the local
strategy accepts exactly the strings not starting with `http://` or
`https://` and the HTTP strategy exactly those that do — so resolution
always succeeds (the local strategy unless the source is an HTTP(S) URL)
and `ingest` always delegates: the no-strategy `validation_error` is
never returned. -/
theorem claim_C10_resolver_total (fs : FileSystem) (env : HttpEnv)
    (jsonOk : String → Bool) (source : String) :
    localCanHandle source = !(httpCanHandle source) ∧
    findStrategy source
      = some (if localCanHandle source then StrategyTag.localFile else StrategyTag.httpJson) ∧
    contextIngest fs env jsonOk source
      = (if localCanHandle source then localFileIngest fs jsonOk source
         else httpJsonIngest env jsonOk source) ∧
    contextIngest fs env jsonOk source ≠ .err (noStrategyErr source) := by
  have hcomp : localCanHandle source = !(httpCanHandle source) := by
    rw [localCanHandle, httpCanHandle]
    cases source.startsWith "http://" <;> cases source.startsWith "https://" <;> rfl
  have hfind : findStrategy source
      = some (if localCanHandle source then StrategyTag.localFile else StrategyTag.httpJson) := by
    rw [findStrategy, registeredStrategies]
    by_cases hl : localCanHandle source
    · rw [if_pos hl]
      rw [List.find?_cons_of_pos _ (by rw [strategyCanHandle]; exact hl)]
    · rw [if_neg hl]
      rw [List.find?_cons_of_neg _ (by rw [strategyCanHandle]; simpa using hl)]
      have hh : httpCanHandle source = true := by
        rw [hcomp] at hl
        simpa using hl
      rw [List.find?_cons_of_pos _ (by rw [strategyCanHandle]; exact hh)]
  have hdeleg : contextIngest fs env jsonOk source
      = (if localCanHandle source then localFileIngest fs jsonOk source
         else httpJsonIngest env jsonOk source) := by
    unfold contextIngest
    rw [hfind]
    by_cases hl : localCanHandle source
    · rw [if_pos hl, if_pos hl]
    · rw [if_neg hl, if_neg hl]
  refine ⟨hcomp, hfind, hdeleg, ?_⟩
  intro hc
  have hk : (contextIngest fs env jsonOk source).errKind = some ErrorKind.validation_error := by
    rw [hc]
    simp [IngestionResult.errKind, noStrategyErr, baseErr]
  rw [hdeleg] at hk
  by_cases hl : localCanHandle source
  · rw [if_pos hl] at hk
    exact localFileIngest_no_validation_error fs jsonOk source hk
  · rw [if_neg hl] at hk
    exact httpJsonIngest_no_validation_error env jsonOk source hk

end JsonMcp
